import Mathlib

/-!
Verification of the vbolt core: a shallow embedding of the raw prefix
iteration engine (`raw.go`), the Index operations (`index` source file:
`SetTargetTerms`, `IterateTerm`, `IterateTarget`, `ReadTermCount`, ...)
and the Bucket operations (`Read`, `ReadSlice`, `Write`).

Modelling conventions:
* a byte-string is a `List Nat` (named `Bytes`); real byte values are
  `< 256`, and the lexicographic order `bytesLt` coincides with Go's
  `bytes.Compare` on such strings;
* the bolt B-tree bucket is a `Store`: an association list of
  `(key, value)` pairs kept strictly sorted by key (`SortedStore`);
  `StoreGet` / `StorePut` / `StoreDel` model `Get` / `Put` / `Delete`;
* a bolt cursor over a sorted store is modelled by the list of entries
  it still has to traverse: `Seek k` positions at the first entry whose
  key is `≥ k` (`dropWhile (key < k)` on a sorted store), `Next` moves
  to the tail, and reverse traversal walks the reversed front part;
* the vpack codecs are modelled by `PackCodec`: an encoding function
  plus a consuming decoder; `PackCodec.Lawful` is the codec contract
  (the decoder consumes exactly the bytes the encoder wrote).
-/

abbrev Bytes := List Nat

/-- Lexicographic strict order on byte strings, as `bytes.Compare < 0`. -/
def bytesLt : Bytes → Bytes → Bool
  | [], [] => false
  | [], _ :: _ => true
  | _ :: _, [] => false
  | a :: as, b :: bs =>
    if a < b then true
    else if a = b then bytesLt as bs
    else false

theorem bytesLt_irrefl (a : Bytes) : bytesLt a a = false := by
  induction a with
  | nil => rfl
  | cons x xs ih => simp [bytesLt, ih]

theorem bytesLt_trans {a b c : Bytes} (h₁ : bytesLt a b = true)
    (h₂ : bytesLt b c = true) : bytesLt a c = true := by
  induction a generalizing b c with
  | nil =>
    cases b with
    | nil => simp [bytesLt] at h₁
    | cons y ys =>
      cases c with
      | nil => simp [bytesLt] at h₂
      | cons z zs => simp [bytesLt]
  | cons x xs ih =>
    cases b with
    | nil => simp [bytesLt] at h₁
    | cons y ys =>
      cases c with
      | nil => simp [bytesLt] at h₂
      | cons z zs =>
        simp only [bytesLt] at h₁ h₂ ⊢
        split at h₁
        · split at h₂
          · have : x < z := by omega
            simp [this]
          · next hyz =>
            split at h₂
            · next hyzeq =>
              subst hyzeq
              simp_all
            · simp at h₂
        · next hxy =>
          split at h₁
          · next hxyeq =>
            subst hxyeq
            split at h₂
            · simp_all
            · next hyz =>
              split at h₂
              · next hyzeq => subst hyzeq; simp_all [ih h₁ h₂]
              · simp at h₂
          · simp at h₁

theorem bytesLt_asymm {a b : Bytes} (h : bytesLt a b = true) :
    bytesLt b a = false := by
  by_contra hc
  have hba : bytesLt b a = true := by
    cases hx : bytesLt b a
    · exact absurd hx hc
    · rfl
  have := bytesLt_trans h hba
  simp [bytesLt_irrefl] at this

theorem bytesLt_total {a b : Bytes} (hne : a ≠ b) :
    bytesLt a b = true ∨ bytesLt b a = true := by
  induction a generalizing b with
  | nil =>
    cases b with
    | nil => exact absurd rfl hne
    | cons y ys => left; rfl
  | cons x xs ih =>
    cases b with
    | nil => right; rfl
    | cons y ys =>
      by_cases hxy : x = y
      · subst hxy
        have hne' : xs ≠ ys := by
          intro h; exact hne (by rw [h])
        rcases ih hne' with h | h
        · left; simp [bytesLt, h]
        · right; simp [bytesLt, h]
      · rcases Nat.lt_or_ge x y with h | h
        · left; simp [bytesLt, h]
        · have hlt : y < x := Nat.lt_of_le_of_ne h (fun he => hxy he.symm)
          right; simp [bytesLt, hlt]

theorem bytesLt_append_self (a x : Bytes) : bytesLt (a ++ x) a = false := by
  induction a with
  | nil => cases x <;> rfl
  | cons h t ih => simp [bytesLt, ih]

theorem bytesLt_self_append (a : Bytes) {x : Bytes} (hx : x ≠ []) :
    bytesLt a (a ++ x) = true := by
  induction a with
  | nil => cases x with | nil => exact absurd rfl hx | cons _ _ => rfl
  | cons h t ih => simp [bytesLt, ih]

theorem bytesLt_append_left (c a b : Bytes) :
    bytesLt (c ++ a) (c ++ b) = bytesLt a b := by
  induction c with
  | nil => rfl
  | cons h t ih => simp [bytesLt, ih]

/-- Splitting a lexicographic comparison at equal-length front segments. -/
theorem bytesLt_append_split {a b x y : Bytes} (hlen : a.length = b.length)
    (h : bytesLt (a ++ x) (b ++ y) = true) :
    bytesLt a b = true ∨ (a = b ∧ bytesLt x y = true) := by
  induction a generalizing b with
  | nil =>
    cases b with
    | nil => right; exact ⟨rfl, h⟩
    | cons _ _ => simp at hlen
  | cons ha ta ih =>
    cases b with
    | nil => simp at hlen
    | cons hb tb =>
      simp only [List.length_cons, Nat.succ_inj] at hlen
      simp only [List.cons_append, bytesLt] at h ⊢
      split at h
      · simp_all
      · next hab =>
        split at h
        · next habeq =>
          subst habeq
          rcases ih hlen h with h' | ⟨he, hxy⟩
          · left; simp [h']
          · right; exact ⟨by rw [he], hxy⟩
        · simp at h

/-- A key that extends `p` never compares below `p`. -/
theorem bytesLt_of_isPrefixOf {p k : Bytes} (h : p.isPrefixOf k = true) :
    bytesLt k p = false := by
  rcases (List.isPrefixOf_iff_prefix.mp h) with ⟨rest, hrest⟩
  rw [← hrest]
  exact bytesLt_append_self p rest

/-- Sandwich: a key between `p` and an extension of `p` itself extends `p`. -/
theorem isPrefixOf_of_between {p b rest : Bytes} (h₁ : bytesLt b p = false)
    (h₂ : bytesLt b (p ++ rest) = true) : p.isPrefixOf b = true := by
  induction p generalizing b with
  | nil => simp [List.isPrefixOf]
  | cons x xs ih =>
    cases b with
    | nil => simp [bytesLt] at h₁
    | cons c cs =>
      simp only [bytesLt] at h₁
      simp only [List.cons_append, bytesLt] at h₂
      split at h₂
      · next hcx =>
        simp [hcx] at h₁
      · next hcx =>
        split at h₂
        · next hceq =>
          subst hceq
          simp only [if_neg (lt_irrefl c), if_pos rfl] at h₁
          simp [List.isPrefixOf, ih h₁ h₂]
        · simp at h₂

/-! ### `_NextPrefix` (`raw.go`)

The Go code scans the byte string right to left for the last byte that
is not `0xFF` and increments it (keeping the suffix); if every byte is
`0xFF` (or the string is empty) it appends a `0` byte.  `nextPrefixCore`
performs the same computation by structural recursion: it first tries to
increment inside the tail (the rightmost position wins), and only when
the whole tail is `0xFF` does it look at the head byte. -/

def nextPrefixCore : Bytes → Option Bytes
  | [] => none
  | a :: rest =>
    match nextPrefixCore rest with
    | some r => some (a :: r)
    | none => if a = 255 then none else some ((a + 1) :: rest)

/-- Translation of `_NextPrefix` from `raw.go`. -/
def nextPrefix (b : Bytes) : Bytes :=
  match nextPrefixCore b with
  | some r => r
  | none => b ++ [0]

example : nextPrefix [] = [0] := by decide
example : nextPrefix [255, 255] = [255, 255, 0] := by decide
example : nextPrefix [1, 255] = [2, 255] := by decide

theorem nextPrefixCore_gt {b r : Bytes} (h : nextPrefixCore b = some r) :
    bytesLt b r = true := by
  induction b generalizing r with
  | nil => simp [nextPrefixCore] at h
  | cons a rest ih =>
    cases hc : nextPrefixCore rest with
    | some r' =>
      simp only [nextPrefixCore, hc] at h
      cases h
      simp [bytesLt, ih hc]
    | none =>
      by_cases ha : a = 255
      · simp [nextPrefixCore, hc, ha] at h
      · simp only [nextPrefixCore, hc, if_neg ha] at h
        cases h
        simp [bytesLt]

/-- `_NextPrefix` always produces a strictly greater byte string. -/
theorem nextPrefix_gt (b : Bytes) : bytesLt b (nextPrefix b) = true := by
  unfold nextPrefix
  cases hc : nextPrefixCore b with
  | some r => exact nextPrefixCore_gt hc
  | none => exact bytesLt_self_append b (by simp)

theorem nextPrefixCore_eq_none {b : Bytes} :
    nextPrefixCore b = none ↔ ∀ x ∈ b, x = 255 := by
  induction b with
  | nil => simp [nextPrefixCore]
  | cons a rest ih =>
    cases hc : nextPrefixCore rest with
    | some r' =>
      simp only [nextPrefixCore, hc]
      constructor
      · intro h; cases h
      · intro h
        have : nextPrefixCore rest = none := ih.mpr (by
          intro x hx; exact h x (List.mem_cons_of_mem _ hx))
        rw [this] at hc; cases hc
    | none =>
      by_cases ha : a = 255
      · simp only [nextPrefixCore, hc, ha, if_pos rfl, if_pos trivial, true_iff]
        intro x hx
        rcases List.mem_cons.mp hx with rfl | hmem
        · rfl
        · exact ih.mp hc x hmem
      · simp [nextPrefixCore, hc, ha]

/-- When some byte of `b` is not `0xFF`, `_NextPrefix b` dominates every
extension of `b`. -/
theorem nextPrefix_gt_extension {b : Bytes} (hb : ∃ x ∈ b, x ≠ 255)
    (rest : Bytes) : bytesLt (b ++ rest) (nextPrefix b) = true := by
  induction b generalizing rest with
  | nil => simp at hb
  | cons a tl ih =>
    unfold nextPrefix
    cases hc : nextPrefixCore tl with
    | some r' =>
      have htl : ∃ x ∈ tl, x ≠ 255 := by
        by_contra hno
        push_neg at hno
        rw [nextPrefixCore_eq_none.mpr hno] at hc
        cases hc
      have := ih htl rest
      unfold nextPrefix at this
      rw [hc] at this
      simp only [nextPrefixCore, hc]
      simp [bytesLt, this]
    | none =>
      have h255 : ∀ x ∈ tl, x = 255 := nextPrefixCore_eq_none.mp hc
      have ha : a ≠ 255 := by
        rcases hb with ⟨x, hx, hxne⟩
        rcases List.mem_cons.mp hx with rfl | hmem
        · exact hxne
        · exact absurd (h255 x hmem) hxne
      simp only [nextPrefixCore, hc, if_neg ha]
      simp [bytesLt]

/-! ### The raw bucket: a strictly sorted association list -/

abbrev Entry := Bytes × Bytes

abbrev Store := List Entry

/-- Keys of a store, in store order. -/
def storeKeys (s : Store) : List Bytes := s.map Prod.fst

/-- Strictly sorted by key in lexicographic order: the canonical shape
of a bolt B-tree bucket. -/
def SortedStore (s : Store) : Prop :=
  List.Pairwise (fun a b => bytesLt a.1 b.1 = true) s

instance sortedStoreDecidable (s : Store) : Decidable (SortedStore s) := by
  unfold SortedStore
  infer_instance

/-- Model of `Bucket.Get`. -/
def StoreGet : Store → Bytes → Option Bytes
  | [], _ => none
  | (k, v) :: tl, key => if key = k then some v else StoreGet tl key

/-- Model of `Bucket.Put`: insert or replace, keeping the list sorted. -/
def StorePut : Store → Bytes → Bytes → Store
  | [], key, val => [(key, val)]
  | (k, v) :: tl, key, val =>
    if bytesLt key k then (key, val) :: (k, v) :: tl
    else if key = k then (key, val) :: tl
    else (k, v) :: StorePut tl key val

/-- Model of `Bucket.Delete`. -/
def StoreDel : Store → Bytes → Store
  | [], _ => []
  | (k, v) :: tl, key => if key = k then tl else (k, v) :: StoreDel tl key

theorem storeGet_put_self (s : Store) (k v : Bytes) :
    StoreGet (StorePut s k v) k = some v := by
  induction s with
  | nil => simp [StorePut, StoreGet]
  | cons e tl ih =>
    obtain ⟨ek, ev⟩ := e
    simp only [StorePut]
    split
    · simp [StoreGet]
    · split
      · next he => simp [StoreGet]
      · next hne => simp [StoreGet, hne, ih]

theorem storeGet_put_ne (s : Store) {k k₂ : Bytes} (v : Bytes)
    (h : k₂ ≠ k) : StoreGet (StorePut s k v) k₂ = StoreGet s k₂ := by
  induction s with
  | nil => simp [StorePut, StoreGet, h]
  | cons e tl ih =>
    obtain ⟨ek, ev⟩ := e
    simp only [StorePut]
    split
    · simp [StoreGet, h]
    · split
      · next he => subst he; simp [StoreGet, h]
      · simp [StoreGet, ih]

theorem storeGet_del_ne (s : Store) {k k₂ : Bytes}
    (h : k₂ ≠ k) : StoreGet (StoreDel s k) k₂ = StoreGet s k₂ := by
  induction s with
  | nil => simp [StoreDel]
  | cons e tl ih =>
    obtain ⟨ek, ev⟩ := e
    simp only [StoreDel]
    split
    · next he => subst he; simp [StoreGet, h]
    · simp [StoreGet, ih]

theorem storeGet_eq_none_of_all_lt {s : Store} {k : Bytes}
    (h : ∀ e ∈ s, bytesLt k e.1 = true) : StoreGet s k = none := by
  induction s with
  | nil => rfl
  | cons e tl ih =>
    obtain ⟨ek, ev⟩ := e
    have hk := h (ek, ev) (List.mem_cons_self _ _)
    have hne : k ≠ ek := by
      intro he; subst he; simp [bytesLt_irrefl] at hk
    simp only [StoreGet, if_neg hne]
    exact ih (fun e he => h e (List.mem_cons_of_mem _ he))

theorem storeGet_del_self {s : Store} (hs : SortedStore s) (k : Bytes) :
    StoreGet (StoreDel s k) k = none := by
  induction s with
  | nil => rfl
  | cons e tl ih =>
    obtain ⟨ek, ev⟩ := e
    rcases List.pairwise_cons.mp hs with ⟨hlt, htl⟩
    simp only [StoreDel]
    split
    · next he =>
      subst he
      exact storeGet_eq_none_of_all_lt (fun e he => hlt e he)
    · next hne => simp [StoreGet, hne, ih htl]

theorem storePut_mem {s : Store} {k v : Bytes} {e : Entry}
    (he : e ∈ StorePut s k v) : e = (k, v) ∨ e ∈ s := by
  induction s with
  | nil => simp [StorePut] at he; simp [he]
  | cons hd tl ih =>
    obtain ⟨hk, hv⟩ := hd
    simp only [StorePut] at he
    split at he
    · rcases List.mem_cons.mp he with rfl | hmem
      · left; rfl
      · right; exact hmem
    · split at he
      · rcases List.mem_cons.mp he with rfl | hmem
        · left; rfl
        · right; exact List.mem_cons_of_mem _ hmem
      · rcases List.mem_cons.mp he with rfl | hmem
        · right; exact List.mem_cons_self _ _
        · rcases ih hmem with h | h
          · left; exact h
          · right; exact List.mem_cons_of_mem _ h

theorem storeDel_sublist (s : Store) (k : Bytes) :
    List.Sublist (StoreDel s k) s := by
  induction s with
  | nil => simp [StoreDel]
  | cons hd tl ih =>
    obtain ⟨hk, hv⟩ := hd
    simp only [StoreDel]
    split
    · exact List.sublist_cons_self _ _
    · exact List.Sublist.cons₂ _ ih

theorem sortedStore_put {s : Store} (hs : SortedStore s) (k v : Bytes) :
    SortedStore (StorePut s k v) := by
  induction s with
  | nil => simp [StorePut, SortedStore]
  | cons e tl ih =>
    obtain ⟨ek, ev⟩ := e
    rcases List.pairwise_cons.mp hs with ⟨hlt, htl⟩
    simp only [StorePut]
    split
    · next hklt =>
      refine List.pairwise_cons.mpr ⟨?_, hs⟩
      intro e he
      rcases List.mem_cons.mp he with rfl | hmem
      · exact hklt
      · exact bytesLt_trans hklt (hlt e hmem)
    · split
      · next he =>
        subst he
        exact List.pairwise_cons.mpr ⟨hlt, htl⟩
      · next hkne =>
        next hnl =>
        refine List.pairwise_cons.mpr ⟨?_, ih htl⟩
        intro e he
        have hklt : bytesLt ek k = true := by
          rcases bytesLt_total hkne with h | h
          · rw [h] at hnl; exact absurd rfl hnl
          · exact h
        rcases storePut_mem he with rfl | hmem
        · exact hklt
        · exact hlt e hmem

theorem sortedStore_del {s : Store} (hs : SortedStore s) (k : Bytes) :
    SortedStore (StoreDel s k) := by
  induction s with
  | nil => exact hs
  | cons e tl ih =>
    obtain ⟨ek, ev⟩ := e
    rcases List.pairwise_cons.mp hs with ⟨hlt, htl⟩
    simp only [StoreDel]
    split
    · exact htl
    · refine List.pairwise_cons.mpr ⟨?_, ih htl⟩
      intro e he
      exact hlt e (List.Sublist.mem he (storeDel_sublist tl k))

theorem storeGet_mem {s : Store} {k v : Bytes} (h : StoreGet s k = some v) :
    (k, v) ∈ s := by
  induction s with
  | nil => simp [StoreGet] at h
  | cons e tl ih =>
    obtain ⟨ek, ev⟩ := e
    simp only [StoreGet] at h
    split at h
    · next he => cases h; subst he; exact List.mem_cons_self _ _
    · exact List.mem_cons_of_mem _ (ih h)

theorem storeGet_of_mem {s : Store} (hs : SortedStore s) {k v : Bytes}
    (h : (k, v) ∈ s) : StoreGet s k = some v := by
  induction s with
  | nil => simp at h
  | cons e tl ih =>
    obtain ⟨ek, ev⟩ := e
    rcases List.pairwise_cons.mp hs with ⟨hlt, htl⟩
    rcases List.mem_cons.mp h with he | hmem
    · cases he; simp [StoreGet]
    · have hne : k ≠ ek := by
        intro he
        subst he
        have := hlt _ hmem
        simp [bytesLt_irrefl] at this
      simp only [StoreGet, if_neg hne]
      exact ih htl hmem

theorem storeGet_isSome_iff {s : Store} (hs : SortedStore s) (k : Bytes) :
    (∃ v, StoreGet s k = some v) ↔ ∃ v, (k, v) ∈ s := by
  constructor
  · rintro ⟨v, hv⟩; exact ⟨v, storeGet_mem hv⟩
  · rintro ⟨v, hv⟩; exact ⟨v, storeGet_of_mem hs hv⟩

/-- Count of entries whose key satisfies a predicate (used to count
forward rows of a term). -/
def keyCount (s : Store) (p : Bytes → Bool) : Nat :=
  s.countP (fun e => p e.1)

theorem keyCount_cons (e : Entry) (tl : Store) (p : Bytes → Bool) :
    keyCount (e :: tl) p = keyCount tl p + (if p e.1 then 1 else 0) := by
  simp [keyCount, List.countP_cons]

theorem keyCount_put_new {s : Store} (hs : SortedStore s) {k : Bytes}
    (v : Bytes) (p : Bytes → Bool) (hnew : StoreGet s k = none) :
    keyCount (StorePut s k v) p = keyCount s p + (if p k then 1 else 0) := by
  induction s with
  | nil => simp [StorePut, keyCount, List.countP_cons]
  | cons e tl ih =>
    obtain ⟨ek, ev⟩ := e
    rcases List.pairwise_cons.mp hs with ⟨hlt, htl⟩
    simp only [StoreGet] at hnew
    split at hnew
    · cases hnew
    · next hne =>
      by_cases hlt1 : bytesLt k ek = true
      · simp only [StorePut, if_pos hlt1]
        rw [keyCount_cons, keyCount_cons]
      · simp only [StorePut, if_neg hlt1, if_neg hne]
        rw [keyCount_cons, keyCount_cons, ih htl hnew]
        simp only [Prod.fst]
        omega

theorem keyCount_put_existing {s : Store} (hs : SortedStore s) {k : Bytes}
    (v : Bytes) (p : Bytes → Bool) (hold : StoreGet s k ≠ none) :
    keyCount (StorePut s k v) p = keyCount s p := by
  induction s with
  | nil => simp [StoreGet] at hold
  | cons e tl ih =>
    obtain ⟨ek, ev⟩ := e
    rcases List.pairwise_cons.mp hs with ⟨hlt, htl⟩
    simp only [StoreGet] at hold
    by_cases he : k = ek
    · subst he
      simp [StorePut, bytesLt_irrefl, keyCount_cons]
    · rw [if_neg he] at hold
      rcases Option.ne_none_iff_exists.mp hold with ⟨v', hv'⟩
      have hmem : (k, v') ∈ tl := storeGet_mem hv'.symm
      have hekk : bytesLt ek k = true := hlt _ hmem
      have hkek : ¬ bytesLt k ek = true := by
        intro hc
        have := bytesLt_asymm hc
        rw [this] at hekk
        cases hekk
      simp only [StorePut, if_neg hkek, if_neg he]
      rw [keyCount_cons, keyCount_cons, ih htl hold]

theorem storeDel_absent {s : Store} {k : Bytes}
    (h : StoreGet s k = none) : StoreDel s k = s := by
  induction s with
  | nil => rfl
  | cons e tl ih =>
    obtain ⟨ek, ev⟩ := e
    simp only [StoreGet] at h
    split at h
    · cases h
    · next hne => simp only [StoreDel, if_neg hne, ih h]

theorem keyCount_del_present {s : Store} (hs : SortedStore s) {k v : Bytes}
    (p : Bytes → Bool) (hv : StoreGet s k = some v) :
    keyCount (StoreDel s k) p + (if p k then 1 else 0) = keyCount s p := by
  induction s with
  | nil => simp [StoreGet] at hv
  | cons e tl ih =>
    obtain ⟨ek, ev⟩ := e
    rcases List.pairwise_cons.mp hs with ⟨hlt, htl⟩
    simp only [StoreGet] at hv
    split at hv
    · next he =>
      subst he
      simp [StoreDel, keyCount_cons]
    · next hne =>
      simp only [StoreDel, if_neg hne]
      rw [keyCount_cons, keyCount_cons, ← ih htl hv]
      omega

/-! ### The prefix iteration engine (`raw.go`)

`_RawIterateCore` drives a bolt cursor.  Over a sorted store the cursor
is modelled by the list of entries it still has to visit:

* `Seek k` = `dropWhile (key < k)` (first entry with key `≥ k`);
* `Next`   = move to the tail of that list;
* reverse iteration seeks `_NextPrefix start` and steps back once,
  i.e. it walks `takeWhile (key < _NextPrefix start)` reversed;
* a `nil` cursor position = the empty remainder list.
-/

inductive IterationDirection where
  | regular : IterationDirection
  | reverse : IterationDirection
deriving DecidableEq

/-- Translation of `Window` (the index source file). -/
structure Window where
  limit : Nat
  offset : Nat
  cursor : Bytes
  direction : IterationDirection
deriving DecidableEq

/-- Window with all options unset (Go zero value `Window{}`). -/
def zeroWindow : Window := ⟨0, 0, [], IterationDirection.regular⟩

/-- Cursor positioning of `_CursorStartPos` / `_CursorStartPosForPrefix`:
the list of entries the cursor will traverse from its start position. -/
def travStart (s : Store) (start : Bytes) (dir : IterationDirection) : Store :=
  match dir with
  | IterationDirection.regular => s.dropWhile (fun e => bytesLt e.1 start)
  | IterationDirection.reverse =>
    if start = [] then s.reverse
    else (s.takeWhile (fun e => bytesLt e.1 (nextPrefix start))).reverse

/-- The yield loop of `_RawIterateCore`.  Returns the visitor state and
the traversal remainder at loop exit (whose head is the entry the
cursor rested on; `[]` means the cursor ran off the bucket). -/
def iterLoop (pfx : Bytes) (limit : Nat) (visit : σ → Bytes → Bytes → σ × Bool) :
    σ → Nat → Store → σ × Store
  | st, _, [] => (st, [])
  | st, count, (k, v) :: tl =>
    if pfx.isPrefixOf k then
      let r := visit st k v
      if r.2 then
        if 0 < limit ∧ limit ≤ count + 1 then (r.1, (k, v) :: tl)
        else iterLoop pfx limit visit r.1 (count + 1) tl
      else (r.1, (k, v) :: tl)
    else (st, (k, v) :: tl)

/-- Post-loop resume-key computation of `_RawIterateCore`: if the loop
exit key is non-nil, step once more and return that key. -/
def iterFinish (r : σ × Store) : σ × Option Bytes :=
  match r.2 with
  | [] => (r.1, none)
  | _ :: tl => (r.1, tl.head?.map Prod.fst)

/-- Translation of `_RawIterateCore` (`raw.go`).  The visitor threads a
state `σ` (modelling the Go closure environment) and returns a
continue flag. -/
def rawIterateCore (s : Store) (pfx : Bytes) (w : Window)
    (visit : σ → Bytes → Bytes → σ × Bool) (init : σ) : σ × Option Bytes :=
  let start := if w.cursor ≠ [] then w.cursor else pfx
  let trav := travStart s start w.direction
  if 0 < w.offset then
    if trav.length ≤ w.offset then (init, none)
    else iterFinish (iterLoop pfx w.limit visit init 0 (trav.drop w.offset))
  else iterFinish (iterLoop pfx w.limit visit init 0 trav)

/-- Always-continue visitor built from a fold function (models the Go
visitors that always return `true`). -/
def visitOf (vf : σ → Entry → σ) : σ → Bytes → Bytes → σ × Bool :=
  fun st k v => (vf st (k, v), true)

/-- Entry predicate for prefix matching (`bytes.HasPrefix`). -/
def matchPfx (pfx : Bytes) (e : Entry) : Bool := pfx.isPrefixOf e.1

theorem iterLoop_cons (pfx : Bytes) (limit : Nat)
    (visit : σ → Bytes → Bytes → σ × Bool) (st : σ) (c : Nat)
    (k v : Bytes) (tl : Store) :
    iterLoop pfx limit visit st c ((k, v) :: tl) =
      if pfx.isPrefixOf k then
        if (visit st k v).2 then
          if 0 < limit ∧ limit ≤ c + 1 then ((visit st k v).1, (k, v) :: tl)
          else iterLoop pfx limit visit (visit st k v).1 (c + 1) tl
        else ((visit st k v).1, (k, v) :: tl)
      else (st, (k, v) :: tl) := rfl

theorem iterLoop_noLimit (pfx : Bytes) (vf : σ → Entry → σ)
    (l : Store) (st : σ) (c : Nat) :
    iterLoop pfx 0 (visitOf vf) st c l =
      ((l.takeWhile (matchPfx pfx)).foldl vf st, l.dropWhile (matchPfx pfx)) := by
  induction l generalizing st c with
  | nil => simp [iterLoop]
  | cons e tl ih =>
    obtain ⟨k, v⟩ := e
    cases hm : pfx.isPrefixOf k with
    | true =>
      rw [iterLoop_cons, if_pos hm]
      simp only [visitOf]
      rw [if_pos trivial]
      simp only [Nat.lt_irrefl, false_and, if_false]
      rw [ih]
      simp [List.takeWhile, List.dropWhile, matchPfx, hm]
    | false =>
      rw [iterLoop_cons, if_neg (by simp [hm])]
      simp [List.takeWhile, List.dropWhile, matchPfx, hm]

theorem iterLoop_limit (pfx : Bytes) (vf : σ → Entry → σ) {L : Nat}
    (l : Store) (st : σ) (c : Nat) (hc : c < L) :
    iterLoop pfx L (visitOf vf) st c l =
      (((l.takeWhile (matchPfx pfx)).take (L - c)).foldl vf st,
        if L - c ≤ (l.takeWhile (matchPfx pfx)).length then l.drop (L - c - 1)
        else l.dropWhile (matchPfx pfx)) := by
  induction l generalizing st c with
  | nil => simp [iterLoop, List.takeWhile, List.dropWhile]
  | cons e tl ih =>
    obtain ⟨k, v⟩ := e
    cases hm : pfx.isPrefixOf k with
    | false =>
      rw [iterLoop_cons, if_neg (by simp [hm])]
      have htw : List.takeWhile (matchPfx pfx) ((k, v) :: tl) = [] := by
        simp [List.takeWhile, matchPfx, hm]
      have hdw : List.dropWhile (matchPfx pfx) ((k, v) :: tl) = (k, v) :: tl := by
        simp [List.dropWhile, matchPfx, hm]
      rw [htw, hdw]
      have : ¬ (L - c ≤ ([] : Store).length) := by simp; omega
      rw [if_neg this]
      simp
    | true =>
      rw [iterLoop_cons, if_pos hm]
      simp only [visitOf]
      rw [if_pos trivial]
      have htw : List.takeWhile (matchPfx pfx) ((k, v) :: tl)
          = (k, v) :: List.takeWhile (matchPfx pfx) tl := by
        simp [List.takeWhile, matchPfx, hm]
      have hdw : List.dropWhile (matchPfx pfx) ((k, v) :: tl)
          = List.dropWhile (matchPfx pfx) tl := by
        simp [List.dropWhile, matchPfx, hm]
      by_cases hstop : 0 < L ∧ L ≤ c + 1
      · rw [if_pos hstop]
        have hLc : L - c = 1 := by omega
        rw [htw, hdw, hLc]
        have : (1 : Nat) ≤ (List.takeWhile (matchPfx pfx) tl).length + 1 := by omega
        simp [this]
      · rw [if_neg hstop]
        have hc1 : c + 1 < L := by omega
        rw [ih _ _ hc1]
        obtain ⟨m, hm2⟩ : ∃ m, L - (c + 1) = m + 1 := ⟨L - (c + 1) - 1, by omega⟩
        have hLc : L - c = m + 2 := by omega
        rw [htw, hdw, hm2, hLc]
        simp only [List.take_succ_cons, List.foldl_cons, List.length_cons,
          Prod.mk.injEq]
        refine ⟨trivial, ?_⟩
        by_cases hcond : m + 1 ≤ (List.takeWhile (matchPfx pfx) tl).length
        · rw [if_pos hcond, if_pos (by omega)]
          have h1 : m + 1 - 1 = m := by omega
          have h2 : m + 2 - 1 = m + 1 := by omega
          rw [h1, h2, List.drop_succ_cons]
        · rw [if_neg hcond, if_neg (by omega)]

theorem dropWhile_head_not {p : Entry → Bool} {l : Store} {a : Entry} {t : Store}
    (h : l.dropWhile p = a :: t) : p a = false := by
  induction l with
  | nil => simp [List.dropWhile] at h
  | cons e tl ih =>
    by_cases hp : p e = true
    · rw [List.dropWhile_cons_of_pos hp] at h
      exact ih h
    · rw [List.dropWhile_cons_of_neg hp] at h
      cases h
      exact Bool.not_eq_true _ |>.mp hp

theorem sorted_dropWhile_ge {s : Store} (hs : SortedStore s) (k : Bytes) :
    ∀ e ∈ s.dropWhile (fun x => bytesLt x.1 k), bytesLt e.1 k = false := by
  intro e he
  cases hd : s.dropWhile (fun x => bytesLt x.1 k) with
  | nil => rw [hd] at he; cases he
  | cons a t =>
    rw [hd] at he
    have ha : bytesLt a.1 k = false := dropWhile_head_not hd
    rcases List.mem_cons.mp he with rfl | hmem
    · exact ha
    · have hsub : SortedStore (a :: t) := by
        rw [← hd]
        exact List.Pairwise.sublist (List.dropWhile_sublist _) hs
      have hak : bytesLt a.1 e.1 = true :=
        (List.pairwise_cons.mp hsub).1 e hmem
      cases hek : bytesLt e.1 k with
      | false => rfl
      | true =>
        have := bytesLt_trans hak hek
        rw [this] at ha
        cases ha

/-- In a sorted run of entries that all sit at or above `pfx`, once an
entry fails the prefix test every later entry fails it too: the
matching entries form a contiguous initial block. -/
theorem sorted_dropWhile_match_none {l : Store} (hl : SortedStore l)
    (hge : ∀ e ∈ l, bytesLt e.1 pfx = false) :
    ∀ e ∈ l.dropWhile (matchPfx pfx), matchPfx pfx e = false := by
  intro e he
  cases hd : l.dropWhile (matchPfx pfx) with
  | nil => rw [hd] at he; cases he
  | cons a t =>
    rw [hd] at he
    have ha : matchPfx pfx a = false := dropWhile_head_not hd
    rcases List.mem_cons.mp he with rfl | hmem
    · exact ha
    · have hsub : SortedStore (a :: t) := by
        rw [← hd]
        exact List.Pairwise.sublist (List.dropWhile_sublist _) hl
      have hae : bytesLt a.1 e.1 = true :=
        (List.pairwise_cons.mp hsub).1 e hmem
      have hamem : a ∈ l := List.Sublist.mem (by rw [hd]; exact List.mem_cons_self _ _)
        (List.dropWhile_sublist _)
      cases hem : matchPfx pfx e with
      | false => rfl
      | true =>
        exfalso
        rcases List.isPrefixOf_iff_prefix.mp hem with ⟨rest, hrest⟩
        have hlt : bytesLt a.1 (pfx ++ rest) = true := by rw [hrest]; exact hae
        have := isPrefixOf_of_between (hge a hamem) hlt
        simp [matchPfx, this] at ha

/-- The regular-direction traversal from `pfx` starts at the first key
`≥ pfx`; its prefix-matching initial block is exactly the set of
matching entries of the whole sorted store, in store order. -/
theorem filter_eq_trav_takeWhile {s : Store} (hs : SortedStore s) (pfx : Bytes) :
    s.filter (matchPfx pfx)
      = (s.dropWhile (fun x => bytesLt x.1 pfx)).takeWhile (matchPfx pfx) := by
  have hsplit := List.takeWhile_append_dropWhile
    (fun x : Entry => bytesLt x.1 pfx) s
  have htrav : SortedStore (s.dropWhile (fun x => bytesLt x.1 pfx)) :=
    List.Pairwise.sublist (List.dropWhile_sublist _) hs
  conv_lhs => rw [← hsplit]
  rw [List.filter_append]
  have h₁ : (s.takeWhile (fun x => bytesLt x.1 pfx)).filter (matchPfx pfx) = [] := by
    rw [List.filter_eq_nil_iff]
    intro e he
    have := List.mem_takeWhile_imp he
    intro hm
    rcases List.isPrefixOf_iff_prefix.mp hm with ⟨rest, hrest⟩
    rw [← hrest] at this
    rw [bytesLt_append_self] at this
    cases this
  have h₂ : (s.dropWhile (fun x => bytesLt x.1 pfx)).filter (matchPfx pfx)
      = (s.dropWhile (fun x => bytesLt x.1 pfx)).takeWhile (matchPfx pfx) := by
    set trav := s.dropWhile (fun x => bytesLt x.1 pfx) with htravdef
    have hge : ∀ e ∈ trav, bytesLt e.1 pfx = false := sorted_dropWhile_ge hs pfx
    have hmsplit := List.takeWhile_append_dropWhile (matchPfx pfx) trav
    conv_lhs => rw [← hmsplit]
    rw [List.filter_append]
    have htake : (trav.takeWhile (matchPfx pfx)).filter (matchPfx pfx)
        = trav.takeWhile (matchPfx pfx) :=
      List.filter_eq_self.mpr (fun e he => List.mem_takeWhile_imp he)
    have hdrop : (trav.dropWhile (matchPfx pfx)).filter (matchPfx pfx) = [] := by
      rw [List.filter_eq_nil_iff]
      intro e he hm
      have := sorted_dropWhile_match_none htrav hge e he
      rw [hm] at this
      cases this
    rw [htake, hdrop, List.append_nil]
  rw [h₁, h₂, List.nil_append]

theorem foldl_snoc_collector {β : Type} (g : Entry → β) (l : Store)
    (acc : List β) :
    l.foldl (fun a e => a ++ [g e]) acc = acc ++ l.map g := by
  induction l generalizing acc with
  | nil => simp
  | cons e tl ih => simp [ih]

theorem takeWhile_append_all {p : Entry → Bool} {l₁ : Store} (l₂ : Store)
    (h : ∀ e ∈ l₁, p e = true) :
    (l₁ ++ l₂).takeWhile p = l₁ ++ l₂.takeWhile p := by
  induction l₁ with
  | nil => simp
  | cons e tl ih =>
    rw [List.cons_append, List.takeWhile_cons_of_pos (h e (List.mem_cons_self _ _))]
    rw [ih (fun e he => h e (List.mem_cons_of_mem _ he))]
    rfl

theorem dropWhile_seek_mem {A B : Store} {e : Entry}
    (h : ∀ a ∈ A, bytesLt a.1 e.1 = true) :
    (A ++ e :: B).dropWhile (fun x => bytesLt x.1 e.1) = e :: B := by
  induction A with
  | nil =>
    simp only [List.nil_append]
    rw [List.dropWhile_cons_of_neg]
    simp [bytesLt_irrefl]
  | cons a tl ih =>
    rw [List.cons_append]
    rw [List.dropWhile_cons_of_pos (by simpa using h a (List.mem_cons_self _ _))]
    exact ih (fun a ha => h a (List.mem_cons_of_mem _ ha))

/-! ### vpack codecs

The serialization library is an external collaborator; its contract
(spec §6) is that a codec is a symmetric encode/read routine whose
reader consumes exactly the bytes the writer produced.  `PackCodec`
models one `vpack.PackFn`: `enc` is the write direction, `dec` the read
direction (returning the decoded value and the unread remainder). -/

structure PackCodec (α : Type) where
  enc : α → Bytes
  dec : Bytes → Option (α × Bytes)

/-- The codec contract: decoding an encoding consumes exactly it. -/
def PackCodec.Lawful {α : Type} (c : PackCodec α) : Prop :=
  ∀ (a : α) (rest : Bytes), c.dec (c.enc a ++ rest) = some (a, rest)

theorem PackCodec.enc_append_inj {α : Type} {c : PackCodec α}
    (hc : c.Lawful) {a b : α} {x y : Bytes}
    (h : c.enc a ++ x = c.enc b ++ y) : a = b ∧ x = y := by
  have h₁ := hc a x
  rw [h, hc b y] at h₁
  cases h₁
  exact ⟨rfl, rfl⟩

theorem PackCodec.enc_inj {α : Type} {c : PackCodec α} (hc : c.Lawful)
    {a b : α} (h : c.enc a = c.enc b) : a = b := by
  have h₂ : c.enc a ++ [] = c.enc b ++ [] := by
    rw [List.append_nil, List.append_nil, h]
  exact (PackCodec.enc_append_inj hc h₂).1

/-- Self-delimiting codecs are closed under the prefix relation: if the
encoding of `a` is a byte-prefix of `enc b ++ junk` then `a = b`. -/
theorem PackCodec.enc_isPrefixOf {α : Type} {c : PackCodec α}
    (hc : c.Lawful) {a b : α} {junk : Bytes}
    (h : (c.enc a).isPrefixOf (c.enc b ++ junk) = true) : a = b := by
  rcases List.isPrefixOf_iff_prefix.mp h with ⟨r, hr⟩
  exact (PackCodec.enc_append_inj hc hr).1

/-- Concrete self-delimiting codec on `Nat` used to instantiate the
generic theorems (one byte per value, the byte alphabet of the model
being unbounded). -/
def byteCodec : PackCodec Nat where
  enc n := [n]
  dec bs :=
    match bs with
    | [] => none
    | b :: r => some (b, r)

theorem byteCodec_lawful : byteCodec.Lawful := by
  intro a rest
  rfl

/-- The default priority codec `vpack.FUInt16`: two bytes, big endian.
On the `uint16` domain (`p < 65536`) this is exactly the Go encoding. -/
def fu16Codec : PackCodec Nat where
  enc p := [p / 256, p % 256]
  dec bs :=
    match bs with
    | a :: b :: r => some (a * 256 + b, r)
    | _ => none

theorem fu16Codec_lawful : fu16Codec.Lawful := by
  intro a rest
  simp only [fu16Codec, List.cons_append]
  congr 2
  omega

theorem fu16Codec_enc_lt {p q : Nat} (h : p < q) :
    bytesLt (fu16Codec.enc p) (fu16Codec.enc q) = true := by
  simp only [fu16Codec, bytesLt]
  rcases Nat.lt_or_ge (p / 256) (q / 256) with h₁ | h₁
  · simp [h₁]
  · have hd : p / 256 = q / 256 := by
      have hdiv : p / 256 ≤ q / 256 := Nat.div_le_div_right (Nat.le_of_lt h)
      omega
    have hm : p % 256 < q % 256 := by
      have hp := Nat.div_add_mod p 256
      have hq := Nat.div_add_mod q 256
      omega
    simp [hd, hm]

/-- Model of `vpack.Int` (`PackCountFn`): a signed-integer codec.  Only
its `Lawful` contract matters to the index; the model separates
magnitude of the positive and negative part into two bytes. -/
def countCodec : PackCodec Int where
  enc n := [n.toNat, (-n).toNat]
  dec bs :=
    match bs with
    | a :: b :: r => some ((a : Int) - (b : Int), r)
    | _ => none

theorem countCodec_lawful : countCodec.Lawful := by
  intro a rest
  simp only [countCodec, List.cons_append, List.append_nil]
  congr 1
  congr 1
  omega

/-! ### The Index model (the index source file)

Key layouts `_TermKeyPrefix`, `_TargetKeyPrefix`, `_TermTargetKey`,
`_TargetTermKey`, `_TermCountKey` and the operations follow the source
line by line; the transaction/bucket pair is replaced by the explicit
`Store`. -/

def IndexTermPrefix : Nat := 1
def IndexTargetPrefix : Nat := 2
def IndexCountPrefix : Nat := 3

structure IndexInfo (K T P : Type) where
  targetPackFn : PackCodec K
  termPackFn : PackCodec T
  priorityPackFn : PackCodec P

def _TermKeyPrefix {K T P : Type} (info : IndexInfo K T P) (term : T) : Bytes :=
  IndexTermPrefix :: info.termPackFn.enc term

def _TargetKeyPrefix {K T P : Type} (info : IndexInfo K T P) (target : K) : Bytes :=
  IndexTargetPrefix :: info.targetPackFn.enc target

def _TermTargetKey {K T P : Type} (info : IndexInfo K T P)
    (target : K) (term : T) (priority : P) : Bytes :=
  IndexTermPrefix ::
    (info.termPackFn.enc term ++ info.priorityPackFn.enc priority
      ++ info.targetPackFn.enc target)

def _TermCountKey {K T P : Type} (info : IndexInfo K T P) (term : T) : Bytes :=
  IndexCountPrefix :: info.termPackFn.enc term

def _TargetTermKey {K T P : Type} (info : IndexInfo K T P)
    (target : K) (term : T) : Bytes :=
  IndexTargetPrefix :: (info.targetPackFn.enc target ++ info.termPackFn.enc term)

/-- Reading a value through a codec with the Go zero value as the
result of a failed read (`vpack.FromBytesInto` leaves the zero value). -/
def decodeOr {α : Type} (c : PackCodec α) (dflt : α) (data : Bytes) : α :=
  match c.dec data with
  | some (a, _) => a
  | none => dflt

/-- Translation of `_ReadTargetTerm`: skip the discriminator byte, read
the target then the term; failed reads leave the zero value. -/
def _ReadTargetTerm {K T P : Type} [Inhabited K] [Inhabited T]
    (info : IndexInfo K T P) (data : Bytes) : K × T :=
  match info.targetPackFn.dec (data.drop 1) with
  | none => (default, default)
  | some (target, rest) =>
    match info.termPackFn.dec rest with
    | none => (target, default)
    | some (term, _) => (target, term)

/-- Translation of `_ReadTermTargetPriority`. -/
def _ReadTermTargetPriority {K T P : Type} [Inhabited K] [Inhabited T] [Inhabited P]
    (info : IndexInfo K T P) (data : Bytes) : T × K × P :=
  match info.termPackFn.dec (data.drop 1) with
  | none => (default, default, default)
  | some (term, r₁) =>
    match info.priorityPackFn.dec r₁ with
    | none => (term, default, default)
    | some (priority, r₂) =>
      match info.targetPackFn.dec r₂ with
      | none => (term, default, priority)
      | some (target, _) => (term, target, priority)

/-- Count stored under a count row: a missing row or a failed decode
reads as 0 (Go zero value of `int`). -/
def decodeCount (cntC : PackCodec Int) (v : Option Bytes) : Int :=
  match v with
  | none => 0
  | some bs =>
    match cntC.dec bs with
    | some (n, _) => n
    | none => 0

/-- Translation of `_IncTermCount`. -/
def _IncTermCount {K T P : Type} (cntC : PackCodec Int) (info : IndexInfo K T P)
    (s : Store) (term : T) (increment : Int) : Store :=
  let key := _TermCountKey info term
  let count := decodeCount cntC (StoreGet s key) + increment
  StorePut s key (cntC.enc count)

/-- Translation of `ReadTermCount`; `count₀` is the value behind the
caller's `count` pointer, untouched on a failed read. -/
def ReadTermCount {K T P : Type} (cntC : PackCodec Int) (info : IndexInfo K T P)
    (s : Store) (term : T) (count₀ : Int) : Bool × Int :=
  match StoreGet s (_TermCountKey info term) with
  | none => (false, count₀)
  | some bs =>
    match cntC.dec bs with
    | some (n, _) => (true, n)
    | none => (false, count₀)

/-- Translation of `_AddTargetTermPair`. -/
def _AddTargetTermPair {K T P : Type} (info : IndexInfo K T P) (s : Store)
    (target : K) (term : T) (priority : P) : Store :=
  let val := info.priorityPackFn.enc priority
  StorePut (StorePut s (_TermTargetKey info target term priority) [])
    (_TargetTermKey info target term) val

/-- Translation of `_DelTargetTermPair`. -/
def _DelTargetTermPair {K T P : Type} (info : IndexInfo K T P) (s : Store)
    (target : K) (term : T) (priority : P) : Store :=
  StoreDel (StoreDel s (_TermTargetKey info target term priority))
    (_TargetTermKey info target term)

/-- Association-list lookup, modelling Go map access `m[t]`. -/
def alookup {T P : Type} [DecidableEq T] : List (T × P) → T → Option P
  | [], _ => none
  | (a, b) :: tl, t => if t = a then some b else alookup tl t

/-- Association-list update, modelling Go map assignment `m[t] = p`. -/
def aupsert {T P : Type} [DecidableEq T] (l : List (T × P)) (t : T) (p : P) :
    List (T × P) :=
  if l.any (fun e => e.1 = t) then
    l.map (fun e => if e.1 = t then (t, p) else e)
  else l ++ [(t, p)]

/-- Translation of `IterateTarget`: iterate the reverse rows of one
target, decoding `(term, priority)` for the visitor. -/
def IterateTarget {K T P : Type} {σ : Type} [Inhabited K] [Inhabited T] [Inhabited P]
    (info : IndexInfo K T P) (s : Store) (target : K)
    (visit : σ → T → P → σ × Bool) (init : σ) : σ × Option Bytes :=
  rawIterateCore s (_TargetKeyPrefix info target) zeroWindow
    (fun st k v =>
      let tt := _ReadTargetTerm info k
      let priority := decodeOr info.priorityPackFn default v
      visit st tt.2 priority) init

/-- Translation of `SetTargetTerms`.  The Go `terms` map is supplied as
an association list with distinct keys; `existing` is accumulated by
the reverse-row scan exactly as in the source. -/
def SetTargetTerms {K T P : Type} [DecidableEq T] [DecidableEq P]
    [Inhabited K] [Inhabited T] [Inhabited P]
    (cntC : PackCodec Int) (info : IndexInfo K T P) (s : Store)
    (target : K) (terms : List (T × P)) : Store :=
  let existing :=
    (IterateTarget info s target
      (fun acc term priority => (aupsert acc term priority, true)) []).1
  let del := existing.filter (fun e =>
    match alookup terms e.1 with
    | none => true
    | some np => decide (e.2 ≠ np))
  let add := terms.filter (fun e =>
    match alookup existing e.1 with
    | none => true
    | some p => decide (p ≠ e.2))
  let s₁ := del.foldl (fun st e =>
    _IncTermCount cntC info (_DelTargetTermPair info st target e.1 e.2) e.1 (-1)) s
  add.foldl (fun st e =>
    _IncTermCount cntC info (_AddTargetTermPair info st target e.1 e.2) e.1 1) s₁

/-- Translation of `_IterateTermCore`. -/
def _IterateTermCore {K T P : Type} {σ : Type} [Inhabited K] [Inhabited T] [Inhabited P]
    (info : IndexInfo K T P) (s : Store) (term : T) (w : Window)
    (visit : σ → K → P → σ × Bool) (init : σ) : σ × Option Bytes :=
  rawIterateCore s (_TermKeyPrefix info term) w
    (fun st k _v =>
      let r := _ReadTermTargetPriority info k
      visit st r.2.1 r.2.2) init

/-- Translation of `IterateTerm` (zero window). -/
def IterateTerm {K T P : Type} {σ : Type} [Inhabited K] [Inhabited T] [Inhabited P]
    (info : IndexInfo K T P) (s : Store) (term : T)
    (visit : σ → K → P → σ × Bool) (init : σ) : σ × Option Bytes :=
  _IterateTermCore info s term zeroWindow visit init

/-- Translation of `ReadTermTargets`: append every visited target. -/
def ReadTermTargets {K T P : Type} [Inhabited K] [Inhabited T] [Inhabited P]
    (info : IndexInfo K T P) (s : Store) (term : T) (targets : List K)
    (w : Window) : List K × Option Bytes :=
  _IterateTermCore info s term w
    (fun acc target _priority => (acc ++ [target], true)) targets

/-- `IterateTerm` with a visitor that records every delivered
`(target, priority)` pair (never halting): the full yielded sequence. -/
def iterateTermPairs {K T P : Type} [Inhabited K] [Inhabited T] [Inhabited P]
    (info : IndexInfo K T P) (s : Store) (term : T) (w : Window) :
    List (K × P) × Option Bytes :=
  _IterateTermCore info s term w
    (fun acc target priority => (acc ++ [(target, priority)], true)) []

/-! ### The Bucket model (the bucket source file) -/

/-- Go zero value of a key type (`var zero K`). -/
class GoZero (α : Type) where
  zero : α

instance : GoZero Nat := ⟨0⟩

structure BucketInfo (K V : Type) where
  keyPackFn : PackCodec K
  valuePackFn : PackCodec V

/-- Translation of `_Read` (the bucket lives in `s`; the returned pair
is the success flag and the value behind the caller's `item` pointer). -/
def _Read {K V : Type} [DecidableEq K] [GoZero K]
    (info : BucketInfo K V) (s : Store) (id : K) (item : V) : Bool × V :=
  if id = GoZero.zero then (false, item)
  else
    match StoreGet s (info.keyPackFn.enc id) with
    | none => (false, item)
    | some data =>
      match info.valuePackFn.dec data with
      | some (v, _) => (true, v)
      | none => (false, item)

/-- Translation of `ReadSlice`: returns the success count and the
extended list. -/
def ReadSlice {K V : Type} [DecidableEq K] [GoZero K] [Inhabited V]
    (info : BucketInfo K V) (s : Store) (ids : List K) (list : List V) :
    Nat × List V :=
  ids.foldl (fun acc id =>
    let r := _Read info s id default
    if r.1 then (acc.1 + 1, acc.2 ++ [r.2]) else acc) (0, list)

/-- Translation of `ReadSliceToMap` (the Go map as an association list). -/
def ReadSliceToMap {K V : Type} [DecidableEq K] [GoZero K] [Inhabited V]
    (info : BucketInfo K V) (s : Store) (ids : List K) (m : List (K × V)) :
    Nat × List (K × V) :=
  ids.foldl (fun acc id =>
    let r := _Read info s id default
    if r.1 then (acc.1 + 1, aupsert acc.2 id r.2) else acc) (0, m)

/-- Translation of `Write`: silently no-op on the zero key. -/
def Write {K V : Type} [DecidableEq K] [GoZero K]
    (info : BucketInfo K V) (s : Store) (id : K) (item : V) : Store :=
  if id = GoZero.zero then s
  else StorePut s (info.keyPackFn.enc id) (info.valuePackFn.enc item)

theorem foldl_filter_skip {α β : Type} (step : β → α → β) (pred : α → Bool)
    (h : ∀ acc a, pred a = false → step acc a = acc) (ids : List α) (acc : β) :
    ids.foldl step acc = (ids.filter pred).foldl step acc := by
  induction ids generalizing acc with
  | nil => rfl
  | cons i tl ih =>
    cases hp : pred i with
    | true => simp [List.filter_cons, hp, ih]
    | false => simp [List.filter_cons, hp, h acc i hp, ih]

/-! ### Further order helpers -/

theorem bytesLt_false_trans {a b c : Bytes} (hab : bytesLt a b = false)
    (hbc : bytesLt b c = false) : bytesLt a c = false := by
  cases hac : bytesLt a c with
  | false => rfl
  | true =>
    exfalso
    by_cases hba : b = a
    · subst hba
      rw [hac] at hbc
      cases hbc
    · rcases bytesLt_total hba with h | h
      · have := bytesLt_trans h hac
        rw [this] at hbc
        cases hbc
      · rw [h] at hab; cases hab

theorem takeWhile_nil_of_none {p : Entry → Bool} {l : Store}
    (h : ∀ e ∈ l, p e = false) : l.takeWhile p = [] := by
  cases l with
  | nil => rfl
  | cons e tl =>
    rw [List.takeWhile_cons_of_neg]
    simp [h e (List.mem_cons_self _ _)]

theorem takeWhile_drop_of_block {p : Entry → Bool} {l : Store}
    (hblock : ∀ e ∈ l.dropWhile p, p e = false) (n : Nat) :
    (l.drop n).takeWhile p = (l.takeWhile p).drop n := by
  induction l generalizing n with
  | nil => simp
  | cons e tl ih =>
    cases n with
    | zero => simp
    | succ m =>
      cases hp : p e with
      | true =>
        rw [List.dropWhile_cons_of_pos hp] at hblock
        rw [List.drop_succ_cons, List.takeWhile_cons_of_pos hp,
          List.drop_succ_cons]
        exact ih hblock m
      | false =>
        rw [List.dropWhile_cons_of_neg (by simp [hp])] at hblock
        rw [List.drop_succ_cons, List.takeWhile_cons_of_neg (by simp [hp])]
        simp only [List.drop_nil]
        refine takeWhile_nil_of_none ?_
        intro x hx
        exact hblock x (List.mem_cons_of_mem _
          (List.Sublist.mem hx (List.drop_sublist m tl)))

/-- Resume-key computation from the loop-exit remainder (the body of
`iterFinish`, named for statements). -/
def resumeOfRest (r : Store) : Option Bytes :=
  match r with
  | [] => none
  | _ :: tl => tl.head?.map Prod.fst

theorem iterFinish_eq (st : σ) (r : Store) :
    iterFinish (st, r) = (st, resumeOfRest r) := by
  cases r <;> rfl

/-- Every entry of the regular traversal sits at or above the prefix
when the start key extends the prefix. -/
theorem trav_ge_pfx {s : Store} (hs : SortedStore s) {pfx start : Bytes}
    (hm : pfx.isPrefixOf start = true) :
    ∀ e ∈ s.dropWhile (fun x => bytesLt x.1 start), bytesLt e.1 pfx = false := by
  intro e he
  have h₁ : bytesLt e.1 start = false := sorted_dropWhile_ge hs start e he
  rcases List.isPrefixOf_iff_prefix.mp hm with ⟨r, hr⟩
  have h₂ : bytesLt start pfx = false := by rw [← hr]; exact bytesLt_append_self _ _
  exact bytesLt_false_trans h₁ h₂

/-- `_RawIterateCore` with an always-continue visitor and a zero window
(no cursor, offset or limit): the visitor folds over exactly the
prefix-matching entries in store order, and the returned key is the
one two steps past the matching block. -/
theorem rawIterate_zeroWindow {s : Store} (hs : SortedStore s)
    (pfx : Bytes) (vf : σ → Entry → σ) (init : σ) :
    rawIterateCore s pfx zeroWindow (visitOf vf) init
      = ((s.filter (matchPfx pfx)).foldl vf init,
        resumeOfRest ((s.dropWhile (fun x => bytesLt x.1 pfx)).dropWhile
          (matchPfx pfx))) := by
  have h0 : rawIterateCore s pfx zeroWindow (visitOf vf) init
      = iterFinish (iterLoop pfx 0 (visitOf vf) init 0
          (s.dropWhile (fun x => bytesLt x.1 pfx))) := rfl
  rw [h0, iterLoop_noLimit, iterFinish_eq, filter_eq_trav_takeWhile hs]

/-- Visited entries of a regular cursor+offset call: position at the
cursor, then skip `offset` entries, then fold over the remaining
matching block. -/
theorem rawIterate_cursor_visited {s : Store} (hs : SortedStore s)
    {pfx cur : Bytes} (hcur : cur ≠ []) (hm : pfx.isPrefixOf cur = true)
    (off : Nat) (vf : σ → Entry → σ) (init : σ) :
    (rawIterateCore s pfx ⟨0, off, cur, IterationDirection.regular⟩
        (visitOf vf) init).1
      = (((s.dropWhile (fun x => bytesLt x.1 cur)).takeWhile
          (matchPfx pfx)).drop off).foldl vf init := by
  set trav := s.dropWhile (fun x => bytesLt x.1 cur) with htrav
  have htravs : SortedStore trav :=
    List.Pairwise.sublist (List.dropWhile_sublist _) hs
  have hblock : ∀ e ∈ trav.dropWhile (matchPfx pfx), matchPfx pfx e = false :=
    sorted_dropWhile_match_none htravs (trav_ge_pfx hs hm)
  have hstart : rawIterateCore s pfx ⟨0, off, cur, IterationDirection.regular⟩
      (visitOf vf) init
      = if 0 < off then
          if trav.length ≤ off then (init, none)
          else iterFinish (iterLoop pfx 0 (visitOf vf) init 0 (trav.drop off))
        else iterFinish (iterLoop pfx 0 (visitOf vf) init 0 trav) := by
    simp only [rawIterateCore, travStart, if_pos hcur]
  rw [hstart]
  by_cases hoff : 0 < off
  · rw [if_pos hoff]
    by_cases hlen : trav.length ≤ off
    · rw [if_pos hlen]
      have : (trav.takeWhile (matchPfx pfx)).drop off = [] := by
        apply List.drop_eq_nil_of_le
        calc (trav.takeWhile (matchPfx pfx)).length
            ≤ trav.length := (List.takeWhile_sublist _).length_le
          _ ≤ off := hlen
      rw [this]
      rfl
    · rw [if_neg hlen, iterLoop_noLimit, iterFinish_eq]
      simp only
      rw [takeWhile_drop_of_block hblock]
  · rw [if_neg hoff]
    have hoff0 : off = 0 := by omega
    rw [iterLoop_noLimit, iterFinish_eq, hoff0, List.drop_zero]

/-! ### Scenario stores (spec §8, S1)

Term codec, target codec and priority codec instantiated with concrete
lawful codecs; terms are numbered: abc ↦ 100, lol ↦ 101, klm ↦ 102,
rofl ↦ 103; targets are 10 and 12. -/

def scenarioInfo : IndexInfo Nat Nat Nat := ⟨byteCodec, byteCodec, fu16Codec⟩

def scenarioS1a : Store :=
  SetTargetTerms countCodec scenarioInfo [] 10 [(100, 1), (101, 2)]

def scenarioS1b : Store :=
  SetTargetTerms countCodec scenarioInfo scenarioS1a 12 [(100, 2), (102, 10), (101, 5)]

def scenarioS1 : Store :=
  SetTargetTerms countCodec scenarioInfo scenarioS1b 10 [(101, 4), (103, 7)]

/-- Key-collecting raw visitor (for raw-engine statements). -/
def keyCollector : List Bytes → Bytes → Bytes → List Bytes × Bool :=
  visitOf (fun acc e => acc ++ [e.1])

/-- C2: the claim states that the resume key is null whenever the yield
loop ran off the prefix, and that a non-null resume key always begins
with the prefix.  The code contradicts this (and its own doc comment
"returns nil if the visitor exhausted all the keys that have the given
prefix"): after a natural off-prefix exit it still steps once and
returns that key unconditionally.  On the three-key store the engine
visits `[1]`, exhausts the prefix at `[2]`, yet returns `some [3]` — a
non-null resume key that does not begin with the prefix.  The same
happens in scenario S5: the second page call returns a non-null cursor
(the key after the last `lol` forward row). -/
theorem claim_C2_resume_key_not_null :
    (rawIterateCore [([1], []), ([2], []), ([3], [])] [1] zeroWindow
        keyCollector [] = ([[1]], some [3])
      ∧ List.isPrefixOf [1] [3] = false)
    ∧ ((ReadTermTargets scenarioInfo scenarioS1 101 []
          ⟨1, 0, [], IterationDirection.regular⟩).2
        = some (_TermTargetKey scenarioInfo 12 101 5)
      ∧ (ReadTermTargets scenarioInfo scenarioS1 101 []
          ⟨0, 0, _TermTargetKey scenarioInfo 12 101 5,
            IterationDirection.regular⟩).1 = [12]
      ∧ (ReadTermTargets scenarioInfo scenarioS1 101 []
          ⟨0, 0, _TermTargetKey scenarioInfo 12 101 5,
            IterationDirection.regular⟩).2 ≠ none) := by
  decide

/-- C3 counterexample: `[1]` begins with `[]`, yet `_NextPrefix [] = [0]`
is not greater than `[1]` — the claim's universal domination law fails
at the claim's own example input `{}`. -/
theorem claim_C3_counterexample :
    List.isPrefixOf ([] : Bytes) [1] = true
    ∧ bytesLt [1] (nextPrefix []) = false := by
  decide

/-- C3 (amended): `_NextPrefix s` is strictly greater than `s` for every
`s`, and dominates every extension of `s` whenever `s` has at least one
byte other than `0xFF` (for the empty or all-`0xFF` string no byte
string can dominate all extensions, and the code's appended `0x00`
does not); the three concrete examples hold. -/
theorem claim_C3_next_lex_prefix :
    (∀ s : Bytes, bytesLt s (nextPrefix s) = true)
    ∧ (∀ (s t : Bytes), (∃ x ∈ s, x ≠ 255) → s.isPrefixOf t = true →
        bytesLt t (nextPrefix s) = true)
    ∧ nextPrefix [] = [0]
    ∧ nextPrefix [255, 255] = [255, 255, 0]
    ∧ nextPrefix [1, 255] = [2, 255] := by
  refine ⟨nextPrefix_gt, ?_, by decide, by decide, by decide⟩
  intro s t hb hp
  rcases List.isPrefixOf_iff_prefix.mp hp with ⟨r, hr⟩
  rw [← hr]
  exact nextPrefix_gt_extension hb r

theorem claim_C3_witness :
    ((∃ x ∈ ([1, 255] : Bytes), x ≠ 255)
      ∧ List.isPrefixOf ([1, 255] : Bytes) [1, 255, 7] = true)
    ∧ bytesLt [1, 255, 7] (nextPrefix [1, 255]) = true :=
  ⟨⟨by decide, by decide⟩,
    claim_C3_next_lex_prefix.2.1 [1, 255] [1, 255, 7] (by decide) (by decide)⟩

/-- C8 counterexample: on the three-key store with empty prefix,
cursor `[1]` and offset 1, the engine visits `[2], [3]` — the offset
skipped an entry after positioning at the cursor — while with offset 0
it visits `[1], [2], [3]`.  So a supplied offset does have a further
effect alongside a cursor, refuting the claim. -/
theorem claim_C8_counterexample :
    (rawIterateCore [([1], []), ([2], []), ([3], [])] []
        ⟨0, 1, [1], IterationDirection.regular⟩ keyCollector []).1 = [[2], [3]]
    ∧ (rawIterateCore [([1], []), ([2], []), ([3], [])] []
        ⟨0, 0, [1], IterationDirection.regular⟩ keyCollector []).1
      = [[1], [2], [3]] := by
  decide

/-- C8 (amended): the cursor takes precedence only for the start
position; a positive offset then additionally skips that many entries
of the remaining range: the visited sequence with both supplied is the
cursor-only visited sequence with its first `offset` entries removed. -/
theorem claim_C8_cursor_then_offset {s : Store} (hs : SortedStore s)
    {pfx cur : Bytes} (hcur : cur ≠ []) (hm : pfx.isPrefixOf cur = true)
    (off : Nat) :
    (rawIterateCore s pfx ⟨0, off, cur, IterationDirection.regular⟩
        keyCollector []).1
      = ((rawIterateCore s pfx ⟨0, 0, cur, IterationDirection.regular⟩
        keyCollector []).1).drop off := by
  unfold keyCollector
  rw [rawIterate_cursor_visited hs hcur hm off,
    rawIterate_cursor_visited hs hcur hm 0]
  rw [List.drop_zero, foldl_snoc_collector, foldl_snoc_collector]
  simp [List.map_drop]

theorem claim_C8_witness :
    (SortedStore [([1], []), ([2], []), ([3], [])]
      ∧ ([1] : Bytes) ≠ []
      ∧ List.isPrefixOf ([] : Bytes) [1] = true)
    ∧ (rawIterateCore [([1], []), ([2], []), ([3], [])] []
        ⟨0, 1, [1], IterationDirection.regular⟩ keyCollector []).1
      = ((rawIterateCore [([1], []), ([2], []), ([3], [])] []
        ⟨0, 0, [1], IterationDirection.regular⟩ keyCollector []).1).drop 1 :=
  ⟨⟨by decide, by decide, by decide⟩,
    claim_C8_cursor_then_offset (by decide) (by decide) (by decide) 1⟩

/-- C9: `Write` with the zero key returns without writing: the store is
unchanged, whatever bucket, value and prior state. -/
theorem claim_C9_write_zero_noop {K V : Type} [DecidableEq K] [GoZero K]
    (info : BucketInfo K V) (s : Store) (item : V) :
    Write info s GoZero.zero item = s := by
  simp [Write]

/-- C10: `Read` of the zero key answers `false` and leaves the output
item untouched for every store — including stores that do contain a row
under the encoding of the zero key — and `ReadSlice` / `ReadSliceToMap`
behave as if zero ids were absent from their input. -/
theorem claim_C10_read_zero_skipped {K V : Type} [DecidableEq K] [GoZero K]
    [Inhabited V] (info : BucketInfo K V) :
    (∀ (s : Store) (item : V), _Read info s GoZero.zero item = (false, item))
    ∧ (∀ (s : Store) (ids : List K) (list : List V),
        ReadSlice info s ids list
          = ReadSlice info s (ids.filter (fun id => decide (¬ id = GoZero.zero))) list)
    ∧ (∀ (s : Store) (ids : List K) (m : List (K × V)),
        ReadSliceToMap info s ids m
          = ReadSliceToMap info s
              (ids.filter (fun id => decide (¬ id = GoZero.zero))) m) := by
  refine ⟨fun s item => by simp [_Read], ?_, ?_⟩
  · intro s ids list
    exact foldl_filter_skip _ _ (fun acc a ha => by
      have : a = GoZero.zero := by
        by_contra hne
        simp [hne] at ha
      subst this
      simp [_Read]) ids (0, list)
  · intro s ids m
    exact foldl_filter_skip _ _ (fun acc a ha => by
      have : a = GoZero.zero := by
        by_contra hne
        simp [hne] at ha
      subst this
      simp [_Read]) ids (0, m)

/-! ### Key-shape facts for the index layouts -/

section IndexProofs

set_option linter.unusedSectionVars false

variable {K T P : Type} [DecidableEq K] [DecidableEq T] [DecidableEq P]
variable [Inhabited K] [Inhabited T] [Inhabited P]
variable {info : IndexInfo K T P} {cntC : PackCodec Int}

/-- The three codecs of an index satisfy the vpack contract. -/
def IndexLawful (info : IndexInfo K T P) : Prop :=
  info.targetPackFn.Lawful ∧ info.termPackFn.Lawful ∧ info.priorityPackFn.Lawful

theorem termTargetKey_inj (hl : IndexLawful info) {tg tg' : K} {t t' : T}
    {p p' : P} (h : _TermTargetKey info tg t p = _TermTargetKey info tg' t' p') :
    tg = tg' ∧ t = t' ∧ p = p' := by
  obtain ⟨hK, hT, hP⟩ := hl
  simp only [_TermTargetKey, List.cons.injEq, true_and] at h
  rw [List.append_assoc, List.append_assoc] at h
  obtain ⟨ht, h₂⟩ := PackCodec.enc_append_inj hT h
  obtain ⟨hp, h₃⟩ := PackCodec.enc_append_inj hP h₂
  exact ⟨PackCodec.enc_inj hK h₃, ht, hp⟩

theorem targetTermKey_inj (hl : IndexLawful info) {tg tg' : K} {t t' : T}
    (h : _TargetTermKey info tg t = _TargetTermKey info tg' t') :
    tg = tg' ∧ t = t' := by
  obtain ⟨hK, hT, hP⟩ := hl
  simp only [_TargetTermKey, List.cons.injEq, true_and] at h
  obtain ⟨htg, h₂⟩ := PackCodec.enc_append_inj hK h
  exact ⟨htg, PackCodec.enc_inj hT h₂⟩

theorem termCountKey_inj (hl : IndexLawful info) {t t' : T}
    (h : _TermCountKey info t = _TermCountKey info t') : t = t' := by
  obtain ⟨hK, hT, hP⟩ := hl
  simp only [_TermCountKey, List.cons.injEq, true_and] at h
  exact PackCodec.enc_inj hT h

theorem termTargetKey_ne_targetTermKey {tg tg' : K} {t t' : T} {p : P} :
    _TermTargetKey info tg t p ≠ _TargetTermKey info tg' t' := by
  simp [_TermTargetKey, _TargetTermKey, IndexTermPrefix, IndexTargetPrefix]

theorem termTargetKey_ne_termCountKey {tg : K} {t t' : T} {p : P} :
    _TermTargetKey info tg t p ≠ _TermCountKey info t' := by
  simp [_TermTargetKey, _TermCountKey, IndexTermPrefix, IndexCountPrefix]

theorem targetTermKey_ne_termCountKey {tg : K} {t t' : T} :
    _TargetTermKey info tg t ≠ _TermCountKey info t' := by
  simp [_TargetTermKey, _TermCountKey, IndexTargetPrefix, IndexCountPrefix]

theorem isPrefixOf_cons_same {a : Nat} {l₁ l₂ : Bytes} :
    (a :: l₁).isPrefixOf (a :: l₂) = l₁.isPrefixOf l₂ := by
  simp [List.isPrefixOf]

theorem termKeyPfx_fwd (hl : IndexLawful info) {t t' : T} {tg : K} {p : P} :
    (_TermKeyPrefix info t).isPrefixOf (_TermTargetKey info tg t' p) = true
      ↔ t = t' := by
  constructor
  · intro h
    simp only [_TermKeyPrefix, _TermTargetKey, isPrefixOf_cons_same] at h
    rw [List.append_assoc] at h
    exact PackCodec.enc_isPrefixOf hl.2.1 h
  · rintro rfl
    simp only [_TermKeyPrefix, _TermTargetKey, isPrefixOf_cons_same]
    rw [List.isPrefixOf_iff_prefix, List.append_assoc]
    exact ⟨_, rfl⟩

theorem termKeyPfx_not_rev {t : T} {tg : K} {t' : T} :
    (_TermKeyPrefix info t).isPrefixOf (_TargetTermKey info tg t') = false := by
  simp [_TermKeyPrefix, _TargetTermKey, List.isPrefixOf,
    IndexTermPrefix, IndexTargetPrefix]

theorem termKeyPfx_not_cnt {t t' : T} :
    (_TermKeyPrefix info t).isPrefixOf (_TermCountKey info t') = false := by
  simp [_TermKeyPrefix, _TermCountKey, List.isPrefixOf,
    IndexTermPrefix, IndexCountPrefix]

theorem targetKeyPfx_rev (hl : IndexLawful info) {tg tg' : K} {t : T} :
    (_TargetKeyPrefix info tg).isPrefixOf (_TargetTermKey info tg' t) = true
      ↔ tg = tg' := by
  constructor
  · intro h
    simp only [_TargetKeyPrefix, _TargetTermKey, isPrefixOf_cons_same] at h
    exact PackCodec.enc_isPrefixOf hl.1 h
  · rintro rfl
    simp only [_TargetKeyPrefix, _TargetTermKey, isPrefixOf_cons_same]
    rw [List.isPrefixOf_iff_prefix]
    exact ⟨_, rfl⟩

theorem targetKeyPfx_not_fwd {tg tg' : K} {t : T} {p : P} :
    (_TargetKeyPrefix info tg).isPrefixOf (_TermTargetKey info tg' t p) = false := by
  simp [_TargetKeyPrefix, _TermTargetKey, List.isPrefixOf,
    IndexTermPrefix, IndexTargetPrefix]

theorem targetKeyPfx_not_cnt {tg : K} {t : T} :
    (_TargetKeyPrefix info tg).isPrefixOf (_TermCountKey info t) = false := by
  simp [_TargetKeyPrefix, _TermCountKey, List.isPrefixOf,
    IndexTargetPrefix, IndexCountPrefix]

theorem readTargetTerm_eq (hl : IndexLawful info) (tg : K) (t : T) :
    _ReadTargetTerm info (_TargetTermKey info tg t) = (tg, t) := by
  obtain ⟨hK, hT, hP⟩ := hl
  have h₂ : info.termPackFn.dec (info.termPackFn.enc t) = some (t, []) := by
    have := hT t []
    rwa [List.append_nil] at this
  simp only [_ReadTargetTerm, _TargetTermKey, List.drop_succ_cons, List.drop_zero,
    hK tg (info.termPackFn.enc t), h₂]

theorem readTermTargetPriority_eq (hl : IndexLawful info) (tg : K) (t : T) (p : P) :
    _ReadTermTargetPriority info (_TermTargetKey info tg t p) = (t, tg, p) := by
  obtain ⟨hK, hT, hP⟩ := hl
  have h₃ : info.targetPackFn.dec (info.targetPackFn.enc tg) = some (tg, []) := by
    have := hK tg []
    rwa [List.append_nil] at this
  simp only [_ReadTermTargetPriority, _TermTargetKey, List.drop_succ_cons,
    List.drop_zero, List.append_assoc, hT t _, hP p _, h₃]

theorem decodeOr_enc (hc : PackCodec.Lawful info.priorityPackFn) (p : P)
    (dflt : P) : decodeOr info.priorityPackFn dflt (info.priorityPackFn.enc p) = p := by
  have := hc p []
  rw [List.append_nil] at this
  simp [decodeOr, this]

theorem decodeCount_enc (hc : cntC.Lawful) (n : Int) :
    decodeCount cntC (some (cntC.enc n)) = n := by
  have := hc n []
  rw [List.append_nil] at this
  simp [decodeCount, this]

/-! ### The index invariants (spec §3) -/

/-- Every physical row has one of the three layouts of §4.2. -/
def RowWF (info : IndexInfo K T P) (cntC : PackCodec Int) (e : Entry) : Prop :=
  (∃ tg t p, e.1 = _TermTargetKey info tg t p ∧ e.2 = [])
  ∨ (∃ tg t p, e.1 = _TargetTermKey info tg t
      ∧ e.2 = info.priorityPackFn.enc p)
  ∨ (∃ t n, e.1 = _TermCountKey info t ∧ e.2 = cntC.enc n)

/-- Forward/reverse agreement (§3 invariant 1 and 3). -/
def Agree (info : IndexInfo K T P) (s : Store) : Prop :=
  (∀ (tg : K) (t : T) (p : P),
    StoreGet s (_TargetTermKey info tg t) = some (info.priorityPackFn.enc p) →
      StoreGet s (_TermTargetKey info tg t p) = some [])
  ∧ (∀ (tg : K) (t : T) (p : P),
      StoreGet s (_TermTargetKey info tg t p) ≠ none →
        StoreGet s (_TargetTermKey info tg t) = some (info.priorityPackFn.enc p))

/-- Number of forward rows of a term. -/
def termRowCount (info : IndexInfo K T P) (s : Store) (t : T) : Nat :=
  keyCount s (fun k => (_TermKeyPrefix info t).isPrefixOf k)

/-- The count row of every term holds the number of its forward rows
(missing row read as 0). -/
def CountOK (info : IndexInfo K T P) (cntC : PackCodec Int) (s : Store) : Prop :=
  ∀ t : T, decodeCount cntC (StoreGet s (_TermCountKey info t))
    = (termRowCount info s t : Int)

/-- The index invariant: a sorted store of well-formed rows whose two
directions agree and whose counts are consistent. -/
def IndexInv (info : IndexInfo K T P) (cntC : PackCodec Int) (s : Store) : Prop :=
  SortedStore s ∧ (∀ e ∈ s, RowWF info cntC e) ∧ Agree info s
    ∧ CountOK info cntC s

theorem indexInv_empty : IndexInv info cntC [] := by
  refine ⟨List.Pairwise.nil, by simp, ⟨?_, ?_⟩, ?_⟩
  · intro tg t p h
    simp [StoreGet] at h
  · intro tg t p h
    simp [StoreGet] at h
  · intro t
    simp [StoreGet, decodeCount, termRowCount, keyCount]


/-! ### The reverse-row scan of `SetTargetTerms` -/

theorem alookup_none_iff {l : List (T × P)} {t : T} :
    alookup l t = none ↔ t ∉ l.map Prod.fst := by
  induction l with
  | nil => simp [alookup]
  | cons e tl ih =>
    obtain ⟨a, b⟩ := e
    by_cases he : t = a
    · subst he
      simp [alookup]
    · simp [alookup, he, ih, Ne.symm he]

theorem alookup_some_iff {l : List (T × P)} (hnd : (l.map Prod.fst).Nodup)
    {t : T} {p : P} : alookup l t = some p ↔ (t, p) ∈ l := by
  induction l with
  | nil => simp [alookup]
  | cons e tl ih =>
    obtain ⟨a, b⟩ := e
    simp only [List.map_cons, List.nodup_cons] at hnd
    by_cases he : t = a
    · subst he
      simp only [alookup, if_pos rfl, List.mem_cons]
      constructor
      · rintro h; cases h; left; rfl
      · rintro (h | h)
        · cases h; rfl
        · exfalso
          exact hnd.1 (List.mem_map.mpr ⟨(t, p), h, rfl⟩)
    · simp only [alookup, if_neg he, List.mem_cons]
      rw [ih hnd.2]
      constructor
      · intro h; right; exact h
      · rintro (h | h)
        · cases h; exact absurd rfl he
        · exact h

theorem aupsert_not_mem {l : List (T × P)} {t : T} (p : P)
    (h : ∀ e ∈ l, e.1 ≠ t) : aupsert l t p = l ++ [(t, p)] := by
  unfold aupsert
  rw [if_neg]
  intro hx
  rcases List.any_eq_true.mp hx with ⟨e, he, het⟩
  exact h e he (by simpa using het)

theorem foldl_aupsert_append {rows acc : List (T × P)}
    (hdisj : ∀ e ∈ acc, ∀ r ∈ rows, e.1 ≠ r.1)
    (hnd : (rows.map Prod.fst).Nodup) :
    rows.foldl (fun a e => aupsert a e.1 e.2) acc = acc ++ rows := by
  induction rows generalizing acc with
  | nil => simp
  | cons r tl ih =>
    obtain ⟨t, p⟩ := r
    simp only [List.map_cons, List.nodup_cons] at hnd
    simp only [List.foldl_cons]
    rw [aupsert_not_mem p (fun e he => hdisj e he (t, p) (List.mem_cons_self _ _))]
    rw [ih ?_ hnd.2]
    · simp
    · intro e he r hr
      rcases List.mem_append.mp he with h | h
      · exact hdisj e h r (List.mem_cons_of_mem _ hr)
      · simp only [List.mem_singleton] at h
        subst h
        simp only
        intro hc
        exact hnd.1 (List.mem_map.mpr ⟨r, hr, hc.symm⟩)

/-- Decoded reverse rows of one target, in store order: the contents of
the `existing` map built by the scan in `SetTargetTerms`. -/
def existingList (info : IndexInfo K T P) (s : Store) (tg : K) : List (T × P) :=
  (s.filter (matchPfx (_TargetKeyPrefix info tg))).map
    (fun e => ((_ReadTargetTerm info e.1).2, decodeOr info.priorityPackFn default e.2))

theorem rev_rows_shape {s : Store} (hl : IndexLawful info)
    (hwf : ∀ e ∈ s, RowWF info cntC e) (tg : K) :
    ∀ e ∈ s.filter (matchPfx (_TargetKeyPrefix info tg)),
      ∃ t p, e = (_TargetTermKey info tg t, info.priorityPackFn.enc p) := by
  intro e he
  rcases List.mem_filter.mp he with ⟨hmem, hm⟩
  rcases hwf e hmem with ⟨tg', t', p', hk, hv⟩ | ⟨tg', t', p', hk, hv⟩ | ⟨t', n, hk, hv⟩
  · simp only [matchPfx] at hm
    rw [hk, targetKeyPfx_not_fwd] at hm
    cases hm
  · simp only [matchPfx] at hm
    rw [hk, targetKeyPfx_rev hl] at hm
    subst hm
    refine ⟨t', p', ?_⟩
    obtain ⟨k, v⟩ := e
    simp only at hk hv
    rw [hk, hv]
  · simp only [matchPfx] at hm
    rw [hk, targetKeyPfx_not_cnt] at hm
    cases hm

theorem existingList_nodup {s : Store} (hl : IndexLawful info) (hs : SortedStore s)
    (hwf : ∀ e ∈ s, RowWF info cntC e) (tg : K) :
    ((existingList info s tg).map Prod.fst).Nodup := by
  unfold existingList
  rw [List.map_map, List.nodup_iff_sublist]
  intro a hsub
  have hpw : List.Pairwise
      (fun e₁ e₂ : Entry =>
        (Prod.fst ∘ fun e : Entry =>
          ((_ReadTargetTerm info e.1).2, decodeOr info.priorityPackFn default e.2)) e₁
        ≠ (Prod.fst ∘ fun e : Entry =>
          ((_ReadTargetTerm info e.1).2, decodeOr info.priorityPackFn default e.2)) e₂)
      (s.filter (matchPfx (_TargetKeyPrefix info tg))) := by
    have hps : List.Pairwise (fun a b : Entry => bytesLt a.1 b.1 = true)
        (s.filter (matchPfx (_TargetKeyPrefix info tg))) :=
      List.Pairwise.sublist (List.filter_sublist s) hs
    refine List.Pairwise.imp_of_mem ?_ hps
    intro e₁ e₂ h₁ h₂ hlt
    rcases rev_rows_shape hl hwf tg e₁ h₁ with ⟨t₁, p₁, rfl⟩
    rcases rev_rows_shape hl hwf tg e₂ h₂ with ⟨t₂, p₂, rfl⟩
    simp only [Function.comp_apply, readTargetTerm_eq hl]
    intro hteq
    subst hteq
    simp only at hlt
    rw [bytesLt_irrefl] at hlt
    cases hlt
  have hp2 := List.Pairwise.sublist hsub (List.pairwise_map.mpr hpw)
  rcases List.pairwise_cons.mp hp2 with ⟨hne, _⟩
  exact hne a (List.mem_cons_self _ _) rfl

theorem scan_eq_existingList {s : Store} (hl : IndexLawful info)
    (hs : SortedStore s) (hwf : ∀ e ∈ s, RowWF info cntC e) (tg : K) :
    (IterateTarget info s tg
      (fun acc term priority => (aupsert acc term priority, true)) []).1
      = existingList info s tg := by
  have h0 : IterateTarget info s tg
      (fun acc term priority => (aupsert acc term priority, true)) []
      = rawIterateCore s (_TargetKeyPrefix info tg) zeroWindow
        (visitOf (fun acc e =>
          aupsert acc (_ReadTargetTerm info e.1).2
            (decodeOr info.priorityPackFn default e.2))) [] := rfl
  rw [h0, rawIterate_zeroWindow hs]
  show (s.filter (matchPfx (_TargetKeyPrefix info tg))).foldl
      (fun acc e => aupsert acc (_ReadTargetTerm info e.1).2
        (decodeOr info.priorityPackFn default e.2)) [] = _
  have hmap := List.foldl_map
    (fun e : Entry => ((_ReadTargetTerm info e.1).2,
      decodeOr info.priorityPackFn default e.2))
    (fun (a : List (T × P)) (e : T × P) => aupsert a e.1 e.2)
    (s.filter (matchPfx (_TargetKeyPrefix info tg))) []
  rw [← hmap]
  have hfold : (existingList info s tg).foldl (fun a e => aupsert a e.1 e.2) []
      = [] ++ existingList info s tg :=
    foldl_aupsert_append (by simp) (existingList_nodup hl hs hwf tg)
  simpa [existingList] using hfold

theorem existingList_mem_iff {s : Store} (hl : IndexLawful info)
    (hs : SortedStore s) (hwf : ∀ e ∈ s, RowWF info cntC e) (tg : K)
    {t : T} {p : P} :
    (t, p) ∈ existingList info s tg
      ↔ StoreGet s (_TargetTermKey info tg t) = some (info.priorityPackFn.enc p) := by
  constructor
  · intro h
    rcases List.mem_map.mp h with ⟨e, he, hg⟩
    rcases rev_rows_shape hl hwf tg e he with ⟨t', p', rfl⟩
    simp only [readTargetTerm_eq hl, decodeOr_enc hl.2.2] at hg
    cases hg
    exact storeGet_of_mem hs (List.mem_filter.mp he).1
  · intro h
    have hmem : (_TargetTermKey info tg t, info.priorityPackFn.enc p) ∈ s :=
      storeGet_mem h
    have hfil : (_TargetTermKey info tg t, info.priorityPackFn.enc p)
        ∈ s.filter (matchPfx (_TargetKeyPrefix info tg)) := by
      refine List.mem_filter.mpr ⟨hmem, ?_⟩
      simp only [matchPfx]
      exact (targetKeyPfx_rev hl).mpr rfl
    refine List.mem_map.mpr ⟨_, hfil, ?_⟩
    simp only [readTargetTerm_eq hl, decodeOr_enc hl.2.2]

theorem rev_get_shape {s : Store}
    (hwf : ∀ e ∈ s, RowWF info cntC e) {tg : K} {t : T} {v : Bytes}
    (h : StoreGet s (_TargetTermKey info tg t) = some v) :
    ∃ p, v = info.priorityPackFn.enc p := by
  have hmem := storeGet_mem h
  rcases hwf _ hmem with ⟨tg', t', p', hk, hv⟩ | ⟨tg', t', p', hk, hv⟩ | ⟨t', n, hk, hv⟩
  · simp only at hk
    exact absurd hk.symm termTargetKey_ne_targetTermKey
  · exact ⟨p', hv⟩
  · simp only at hk
    exact absurd hk targetTermKey_ne_termCountKey

theorem fwd_get_shape {s : Store}
    (hwf : ∀ e ∈ s, RowWF info cntC e) {tg : K} {t : T} {p : P} {v : Bytes}
    (h : StoreGet s (_TermTargetKey info tg t p) = some v) : v = [] := by
  have hmem := storeGet_mem h
  rcases hwf _ hmem with ⟨tg', t', p', hk, hv⟩ | ⟨tg', t', p', hk, hv⟩ | ⟨t', n, hk, hv⟩
  · exact hv
  · simp only at hk
    exact absurd hk termTargetKey_ne_targetTermKey
  · simp only at hk
    exact absurd hk termTargetKey_ne_termCountKey

theorem alookup_existing_none {s : Store} (hl : IndexLawful info)
    (hs : SortedStore s) (hwf : ∀ e ∈ s, RowWF info cntC e) (tg : K) {t : T} :
    alookup (existingList info s tg) t = none
      ↔ StoreGet s (_TargetTermKey info tg t) = none := by
  rw [alookup_none_iff]
  constructor
  · intro h
    cases hv : StoreGet s (_TargetTermKey info tg t) with
    | none => rfl
    | some v =>
      exfalso
      rcases rev_get_shape hwf hv with ⟨p, rfl⟩
      have := (existingList_mem_iff hl hs hwf tg).mpr hv
      exact h (List.mem_map.mpr ⟨(t, p), this, rfl⟩)
  · intro h hc
    rcases List.mem_map.mp hc with ⟨e, he, hfst⟩
    obtain ⟨t₁, p₁⟩ := e
    simp only at hfst
    subst hfst
    have := (existingList_mem_iff hl hs hwf tg).mp he
    rw [this] at h
    cases h

/-! ### The two phases of `SetTargetTerms` -/

/-- One step of the delete loop: remove both rows, decrement the count. -/
def delStep (cntC : PackCodec Int) (info : IndexInfo K T P) (tg : K) :
    Store → (T × P) → Store :=
  fun st e => _IncTermCount cntC info (_DelTargetTermPair info st tg e.1 e.2) e.1 (-1)

/-- One step of the add loop: write both rows, increment the count. -/
def addStep (cntC : PackCodec Int) (info : IndexInfo K T P) (tg : K) :
    Store → (T × P) → Store :=
  fun st e => _IncTermCount cntC info (_AddTargetTermPair info st tg e.1 e.2) e.1 1

/-- The delete set computed by `SetTargetTerms` (old priorities). -/
def delListOf (existing terms : List (T × P)) : List (T × P) :=
  existing.filter (fun e =>
    match alookup terms e.1 with
    | none => true
    | some np => decide (e.2 ≠ np))

/-- The add set computed by `SetTargetTerms` (new priorities). -/
def addListOf (existing terms : List (T × P)) : List (T × P) :=
  terms.filter (fun e =>
    match alookup existing e.1 with
    | none => true
    | some p => decide (p ≠ e.2))

theorem setTargetTerms_unfold {s : Store} (hl : IndexLawful info)
    (hs : SortedStore s) (hwf : ∀ e ∈ s, RowWF info cntC e)
    (tg : K) (terms : List (T × P)) :
    SetTargetTerms cntC info s tg terms
      = (addListOf (existingList info s tg) terms).foldl (addStep cntC info tg)
        ((delListOf (existingList info s tg) terms).foldl (delStep cntC info tg) s) := by
  simp only [SetTargetTerms, delListOf, addListOf, delStep, addStep]
  rw [scan_eq_existingList hl hs hwf]
  rfl

theorem sorted_delStep {st : Store} (hst : SortedStore st) (tg : K)
    (e : T × P) : SortedStore (delStep cntC info tg st e) :=
  sortedStore_put (sortedStore_del (sortedStore_del hst _) _) _ _

theorem sorted_addStep {st : Store} (hst : SortedStore st) (tg : K)
    (e : T × P) : SortedStore (addStep cntC info tg st e) :=
  sortedStore_put (sortedStore_put (sortedStore_put hst _ _) _ _) _ _

theorem get_delStep_cnt {st : Store} (tg : K) (t : T) (p : P) :
    StoreGet (delStep cntC info tg st (t, p)) (_TermCountKey info t)
      = some (cntC.enc
          (decodeCount cntC (StoreGet st (_TermCountKey info t)) + (-1))) := by
  simp only [delStep, _IncTermCount, _DelTargetTermPair]
  rw [storeGet_put_self]
  rw [storeGet_del_ne _ (Ne.symm targetTermKey_ne_termCountKey),
    storeGet_del_ne _ (Ne.symm termTargetKey_ne_termCountKey)]

theorem get_delStep_rev {st : Store} (hst : SortedStore st) (tg : K)
    (t : T) (p : P) :
    StoreGet (delStep cntC info tg st (t, p)) (_TargetTermKey info tg t) = none := by
  simp only [delStep, _IncTermCount, _DelTargetTermPair]
  rw [storeGet_put_ne _ _ targetTermKey_ne_termCountKey]
  exact storeGet_del_self (sortedStore_del hst _) _

theorem get_delStep_fwd {st : Store} (hst : SortedStore st) (tg : K)
    (t : T) (p : P) :
    StoreGet (delStep cntC info tg st (t, p)) (_TermTargetKey info tg t p) = none := by
  simp only [delStep, _IncTermCount, _DelTargetTermPair]
  rw [storeGet_put_ne _ _ termTargetKey_ne_termCountKey,
    storeGet_del_ne _ termTargetKey_ne_targetTermKey]
  exact storeGet_del_self hst _

theorem get_delStep_other {st : Store} (tg : K) (t : T) (p : P) {k : Bytes}
    (h₁ : k ≠ _TermCountKey info t) (h₂ : k ≠ _TargetTermKey info tg t)
    (h₃ : k ≠ _TermTargetKey info tg t p) :
    StoreGet (delStep cntC info tg st (t, p)) k = StoreGet st k := by
  simp only [delStep, _IncTermCount, _DelTargetTermPair]
  rw [storeGet_put_ne _ _ h₁, storeGet_del_ne _ h₂, storeGet_del_ne _ h₃]

theorem get_addStep_cnt {st : Store} (tg : K) (t : T) (p : P) :
    StoreGet (addStep cntC info tg st (t, p)) (_TermCountKey info t)
      = some (cntC.enc
          (decodeCount cntC (StoreGet st (_TermCountKey info t)) + 1)) := by
  simp only [addStep, _IncTermCount, _AddTargetTermPair]
  rw [storeGet_put_self]
  rw [storeGet_put_ne _ _ (Ne.symm targetTermKey_ne_termCountKey),
    storeGet_put_ne _ _ (Ne.symm termTargetKey_ne_termCountKey)]

theorem get_addStep_rev {st : Store} (tg : K) (t : T) (p : P) :
    StoreGet (addStep cntC info tg st (t, p)) (_TargetTermKey info tg t)
      = some (info.priorityPackFn.enc p) := by
  simp only [addStep, _IncTermCount, _AddTargetTermPair]
  rw [storeGet_put_ne _ _ targetTermKey_ne_termCountKey]
  exact storeGet_put_self _ _ _

theorem get_addStep_fwd {st : Store} (tg : K) (t : T) (p : P) :
    StoreGet (addStep cntC info tg st (t, p)) (_TermTargetKey info tg t p)
      = some [] := by
  simp only [addStep, _IncTermCount, _AddTargetTermPair]
  rw [storeGet_put_ne _ _ termTargetKey_ne_termCountKey,
    storeGet_put_ne _ _ termTargetKey_ne_targetTermKey]
  exact storeGet_put_self _ _ _

theorem get_addStep_other {st : Store} (tg : K) (t : T) (p : P) {k : Bytes}
    (h₁ : k ≠ _TermCountKey info t) (h₂ : k ≠ _TargetTermKey info tg t)
    (h₃ : k ≠ _TermTargetKey info tg t p) :
    StoreGet (addStep cntC info tg st (t, p)) k = StoreGet st k := by
  simp only [addStep, _IncTermCount, _AddTargetTermPair]
  rw [storeGet_put_ne _ _ h₁, storeGet_put_ne _ _ h₂, storeGet_put_ne _ _ h₃]

theorem foldl_sorted {step : Store → (T × P) → Store}
    (hp : ∀ st e, SortedStore st → SortedStore (step st e))
    {st : Store} (hst : SortedStore st) (l : List (T × P)) :
    SortedStore (l.foldl step st) := by
  induction l generalizing st with
  | nil => exact hst
  | cons e tl ih => exact ih (hp st e hst)

theorem foldl_delStep_frame {tg : K} {st : Store} {dl : List (T × P)} {k : Bytes}
    (h : ∀ e ∈ dl, k ≠ _TermCountKey info e.1 ∧ k ≠ _TargetTermKey info tg e.1
      ∧ k ≠ _TermTargetKey info tg e.1 e.2) :
    StoreGet (dl.foldl (delStep cntC info tg) st) k = StoreGet st k := by
  induction dl generalizing st with
  | nil => rfl
  | cons e tl ih =>
    obtain ⟨t, p⟩ := e
    rcases h (t, p) (List.mem_cons_self _ _) with ⟨h₁, h₂, h₃⟩
    rw [List.foldl_cons, ih (fun e he => h e (List.mem_cons_of_mem _ he)),
      get_delStep_other tg t p h₁ h₂ h₃]

theorem foldl_addStep_frame {tg : K} {st : Store} {al : List (T × P)} {k : Bytes}
    (h : ∀ e ∈ al, k ≠ _TermCountKey info e.1 ∧ k ≠ _TargetTermKey info tg e.1
      ∧ k ≠ _TermTargetKey info tg e.1 e.2) :
    StoreGet (al.foldl (addStep cntC info tg) st) k = StoreGet st k := by
  induction al generalizing st with
  | nil => rfl
  | cons e tl ih =>
    obtain ⟨t, p⟩ := e
    rcases h (t, p) (List.mem_cons_self _ _) with ⟨h₁, h₂, h₃⟩
    rw [List.foldl_cons, ih (fun e he => h e (List.mem_cons_of_mem _ he)),
      get_addStep_other tg t p h₁ h₂ h₃]

/-- Keys owned by the step of term `t` are untouched by steps of other
terms (all under lawful codecs). -/
theorem rev_frame_cond (hl : IndexLawful info) {tg : K} {dl : List (T × P)}
    {t : T} (hnot : t ∉ dl.map Prod.fst) :
    ∀ e ∈ dl, _TargetTermKey info tg t ≠ _TermCountKey info e.1
      ∧ _TargetTermKey info tg t ≠ _TargetTermKey info tg e.1
      ∧ _TargetTermKey info tg t ≠ _TermTargetKey info tg e.1 e.2 := by
  intro e he
  refine ⟨targetTermKey_ne_termCountKey, ?_, ?_⟩
  · intro hc
    rcases targetTermKey_inj hl hc with ⟨_, ht⟩
    exact hnot (List.mem_map.mpr ⟨e, he, ht.symm⟩)
  · intro hc
    exact termTargetKey_ne_targetTermKey hc.symm

theorem fwd_frame_cond (hl : IndexLawful info) {tg : K} {dl : List (T × P)}
    {t : T} {p : P} (hnot : t ∉ dl.map Prod.fst) :
    ∀ e ∈ dl, _TermTargetKey info tg t p ≠ _TermCountKey info e.1
      ∧ _TermTargetKey info tg t p ≠ _TargetTermKey info tg e.1
      ∧ _TermTargetKey info tg t p ≠ _TermTargetKey info tg e.1 e.2 := by
  intro e he
  refine ⟨termTargetKey_ne_termCountKey, termTargetKey_ne_targetTermKey, ?_⟩
  intro hc
  rcases termTargetKey_inj hl hc with ⟨_, ht, _⟩
  exact hnot (List.mem_map.mpr ⟨e, he, ht.symm⟩)

theorem cnt_frame_cond (hl : IndexLawful info) {tg : K} {dl : List (T × P)}
    {t : T} (hnot : t ∉ dl.map Prod.fst) :
    ∀ e ∈ dl, _TermCountKey info t ≠ _TermCountKey info e.1
      ∧ _TermCountKey info t ≠ _TargetTermKey info tg e.1
      ∧ _TermCountKey info t ≠ _TermTargetKey info tg e.1 e.2 := by
  intro e he
  refine ⟨?_, fun hc => targetTermKey_ne_termCountKey hc.symm,
    fun hc => termTargetKey_ne_termCountKey hc.symm⟩
  intro hc
  exact hnot (List.mem_map.mpr ⟨e, he, (termCountKey_inj hl hc).symm⟩)

theorem foldl_delStep_rev (hl : IndexLawful info) {tg : K} {st : Store}
    (hst : SortedStore st) {dl : List (T × P)}
    (hnd : (dl.map Prod.fst).Nodup) {t : T} {p : P} (hmem : (t, p) ∈ dl) :
    StoreGet (dl.foldl (delStep cntC info tg) st) (_TargetTermKey info tg t) = none := by
  induction dl generalizing st with
  | nil => cases hmem
  | cons e tl ih =>
    simp only [List.map_cons, List.nodup_cons] at hnd
    rcases List.mem_cons.mp hmem with rfl | hmem'
    · rw [List.foldl_cons, foldl_delStep_frame (rev_frame_cond hl hnd.1),
        get_delStep_rev hst tg t p]
    · rw [List.foldl_cons]
      exact ih (sorted_delStep hst tg e) hnd.2 hmem'

theorem foldl_delStep_fwd (hl : IndexLawful info) {tg : K} {st : Store}
    (hst : SortedStore st) {dl : List (T × P)}
    (hnd : (dl.map Prod.fst).Nodup) {t : T} {p : P} (hmem : (t, p) ∈ dl) :
    StoreGet (dl.foldl (delStep cntC info tg) st) (_TermTargetKey info tg t p) = none := by
  induction dl generalizing st with
  | nil => cases hmem
  | cons e tl ih =>
    simp only [List.map_cons, List.nodup_cons] at hnd
    rcases List.mem_cons.mp hmem with rfl | hmem'
    · rw [List.foldl_cons, foldl_delStep_frame (fwd_frame_cond hl hnd.1),
        get_delStep_fwd hst tg t p]
    · rw [List.foldl_cons]
      exact ih (sorted_delStep hst tg e) hnd.2 hmem'

theorem foldl_delStep_cnt_mem (hl : IndexLawful info) {tg : K} {st : Store}
    {dl : List (T × P)} (hnd : (dl.map Prod.fst).Nodup) {t : T} {p : P}
    (hmem : (t, p) ∈ dl) :
    StoreGet (dl.foldl (delStep cntC info tg) st) (_TermCountKey info t)
      = some (cntC.enc
          (decodeCount cntC (StoreGet st (_TermCountKey info t)) + (-1))) := by
  induction dl generalizing st with
  | nil => cases hmem
  | cons e tl ih =>
    simp only [List.map_cons, List.nodup_cons] at hnd
    rcases List.mem_cons.mp hmem with rfl | hmem'
    · rw [List.foldl_cons, foldl_delStep_frame (cnt_frame_cond hl hnd.1),
        get_delStep_cnt tg t p]
    · rw [List.foldl_cons]
      rw [ih hnd.2 hmem']
      obtain ⟨t', p'⟩ := e
      have hne : t ≠ t' := by
        intro hc
        subst hc
        exact hnd.1 (List.mem_map.mpr ⟨(t, p), hmem', rfl⟩)
      rw [get_delStep_other tg t' p'
        (fun hc => hne (termCountKey_inj hl hc))
        (Ne.symm targetTermKey_ne_termCountKey)
        (Ne.symm termTargetKey_ne_termCountKey)]

theorem foldl_addStep_rev (hl : IndexLawful info) {tg : K} {st : Store}
    {al : List (T × P)} (hnd : (al.map Prod.fst).Nodup) {t : T} {p : P}
    (hmem : (t, p) ∈ al) :
    StoreGet (al.foldl (addStep cntC info tg) st) (_TargetTermKey info tg t)
      = some (info.priorityPackFn.enc p) := by
  induction al generalizing st with
  | nil => cases hmem
  | cons e tl ih =>
    simp only [List.map_cons, List.nodup_cons] at hnd
    rcases List.mem_cons.mp hmem with rfl | hmem'
    · rw [List.foldl_cons, foldl_addStep_frame (rev_frame_cond hl hnd.1),
        get_addStep_rev tg t p]
    · rw [List.foldl_cons]
      exact ih hnd.2 hmem'

theorem foldl_addStep_fwd (hl : IndexLawful info) {tg : K} {st : Store}
    {al : List (T × P)} (hnd : (al.map Prod.fst).Nodup) {t : T} {p : P}
    (hmem : (t, p) ∈ al) :
    StoreGet (al.foldl (addStep cntC info tg) st) (_TermTargetKey info tg t p)
      = some [] := by
  induction al generalizing st with
  | nil => cases hmem
  | cons e tl ih =>
    simp only [List.map_cons, List.nodup_cons] at hnd
    rcases List.mem_cons.mp hmem with rfl | hmem'
    · rw [List.foldl_cons, foldl_addStep_frame (fwd_frame_cond hl hnd.1),
        get_addStep_fwd tg t p]
    · rw [List.foldl_cons]
      exact ih hnd.2 hmem'

theorem foldl_addStep_cnt_mem (hl : IndexLawful info) {tg : K} {st : Store}
    {al : List (T × P)} (hnd : (al.map Prod.fst).Nodup) {t : T} {p : P}
    (hmem : (t, p) ∈ al) :
    StoreGet (al.foldl (addStep cntC info tg) st) (_TermCountKey info t)
      = some (cntC.enc
          (decodeCount cntC (StoreGet st (_TermCountKey info t)) + 1)) := by
  induction al generalizing st with
  | nil => cases hmem
  | cons e tl ih =>
    simp only [List.map_cons, List.nodup_cons] at hnd
    rcases List.mem_cons.mp hmem with rfl | hmem'
    · rw [List.foldl_cons, foldl_addStep_frame (cnt_frame_cond hl hnd.1),
        get_addStep_cnt tg t p]
    · rw [List.foldl_cons]
      rw [ih hnd.2 hmem']
      obtain ⟨t', p'⟩ := e
      have hne : t ≠ t' := by
        intro hc
        subst hc
        exact hnd.1 (List.mem_map.mpr ⟨(t, p), hmem', rfl⟩)
      rw [get_addStep_other tg t' p'
        (fun hc => hne (termCountKey_inj hl hc))
        (Ne.symm targetTermKey_ne_termCountKey)
        (Ne.symm termTargetKey_ne_termCountKey)]

theorem rowWF_delStep {tg : K} {st : Store} (e : T × P)
    (hwf : ∀ x ∈ st, RowWF info cntC x) :
    ∀ x ∈ delStep cntC info tg st e, RowWF info cntC x := by
  intro x hx
  simp only [delStep, _IncTermCount, _DelTargetTermPair] at hx
  rcases storePut_mem hx with rfl | hmem
  · exact Or.inr (Or.inr ⟨e.1, _, rfl, rfl⟩)
  · exact hwf x (List.Sublist.mem
      (List.Sublist.mem hmem (storeDel_sublist _ _)) (storeDel_sublist _ _))

theorem rowWF_addStep {tg : K} {st : Store} (e : T × P)
    (hwf : ∀ x ∈ st, RowWF info cntC x) :
    ∀ x ∈ addStep cntC info tg st e, RowWF info cntC x := by
  intro x hx
  simp only [addStep, _IncTermCount, _AddTargetTermPair] at hx
  rcases storePut_mem hx with rfl | hmem
  · exact Or.inr (Or.inr ⟨e.1, _, rfl, rfl⟩)
  · rcases storePut_mem hmem with rfl | hmem₂
    · exact Or.inr (Or.inl ⟨tg, e.1, e.2, rfl, rfl⟩)
    · rcases storePut_mem hmem₂ with rfl | hmem₃
      · exact Or.inl ⟨tg, e.1, e.2, rfl, rfl⟩
      · exact hwf x hmem₃

theorem foldl_rowWF {step : Store → (T × P) → Store}
    (hp : ∀ st e, (∀ x ∈ st, RowWF info cntC x) →
      ∀ x ∈ step st e, RowWF info cntC x)
    {st : Store} (hwf : ∀ x ∈ st, RowWF info cntC x) (l : List (T × P)) :
    ∀ x ∈ l.foldl step st, RowWF info cntC x := by
  induction l generalizing st with
  | nil => exact hwf
  | cons e tl ih => exact ih (hp st e hwf)

/-! ### Forward-row counts through the two phases -/

theorem keyCount_put_notpred {s : Store} (hs : SortedStore s) {k : Bytes}
    (v : Bytes) {pr : Bytes → Bool} (hpk : pr k = false) :
    keyCount (StorePut s k v) pr = keyCount s pr := by
  cases hget : StoreGet s k with
  | none =>
    rw [keyCount_put_new hs v pr hget, hpk]
    simp
  | some w =>
    exact keyCount_put_existing hs v pr (by rw [hget]; simp)

theorem keyCount_del_notpred {s : Store} (hs : SortedStore s) {k : Bytes}
    {pr : Bytes → Bool} (hpk : pr k = false) :
    keyCount (StoreDel s k) pr = keyCount s pr := by
  cases hget : StoreGet s k with
  | none => rw [storeDel_absent hget]
  | some w =>
    have := keyCount_del_present hs pr hget
    rw [hpk] at this
    simpa using this

theorem keyCount_delStep (hl : IndexLawful info) {tg : K} {st : Store}
    (hst : SortedStore st) (t₀ : T) {t : T} {p : P}
    (hpres : StoreGet st (_TermTargetKey info tg t p) ≠ none) :
    termRowCount info (delStep cntC info tg st (t, p)) t₀
        + (if t₀ = t then 1 else 0)
      = termRowCount info st t₀ := by
  rcases Option.ne_none_iff_exists.mp hpres with ⟨v, hv⟩
  simp only [delStep, _IncTermCount, _DelTargetTermPair, termRowCount]
  rw [keyCount_put_notpred (sortedStore_del (sortedStore_del hst _) _) _
    termKeyPfx_not_cnt]
  rw [keyCount_del_notpred (sortedStore_del hst _) termKeyPfx_not_rev]
  by_cases ht : t₀ = t
  · subst ht
    have hkc := keyCount_del_present hst
      (fun k => (_TermKeyPrefix info t₀).isPrefixOf k) hv.symm
    have h2 : ((fun k => (_TermKeyPrefix info t₀).isPrefixOf k)
        (_TermTargetKey info tg t₀ p) = true) := (termKeyPfx_fwd hl).mpr rfl
    rw [if_pos h2] at hkc
    simpa using hkc
  · rw [keyCount_del_notpred hst (by
      cases hc : (_TermKeyPrefix info t₀).isPrefixOf (_TermTargetKey info tg t p) with
      | false => rfl
      | true => exact absurd ((termKeyPfx_fwd hl).mp hc) ht)]
    simp [ht]

theorem keyCount_addStep (hl : IndexLawful info) {tg : K} {st : Store}
    (hst : SortedStore st) (t₀ : T) {t : T} {p : P}
    (habs : StoreGet st (_TermTargetKey info tg t p) = none) :
    termRowCount info (addStep cntC info tg st (t, p)) t₀
      = termRowCount info st t₀ + (if t₀ = t then 1 else 0) := by
  simp only [addStep, _IncTermCount, _AddTargetTermPair, termRowCount]
  rw [keyCount_put_notpred
    (sortedStore_put (sortedStore_put hst _ _) _ _) _ termKeyPfx_not_cnt]
  rw [keyCount_put_notpred (sortedStore_put hst _ _) _ termKeyPfx_not_rev]
  by_cases ht : t₀ = t
  · subst ht
    rw [keyCount_put_new hst _ _ habs, (termKeyPfx_fwd hl).mpr rfl]
    simp
  · rw [keyCount_put_notpred hst _ (by
      cases hc : (_TermKeyPrefix info t₀).isPrefixOf (_TermTargetKey info tg t p) with
      | false => rfl
      | true => exact absurd ((termKeyPfx_fwd hl).mp hc) ht)]
    simp [ht]

theorem foldl_delStep_rowCount (hl : IndexLawful info) {tg : K} {st : Store}
    (hst : SortedStore st) {dl : List (T × P)} (hnd : (dl.map Prod.fst).Nodup)
    (hpres : ∀ e ∈ dl, StoreGet st (_TermTargetKey info tg e.1 e.2) ≠ none)
    (t₀ : T) :
    termRowCount info (dl.foldl (delStep cntC info tg) st) t₀
        + (if t₀ ∈ dl.map Prod.fst then 1 else 0)
      = termRowCount info st t₀ := by
  induction dl generalizing st with
  | nil => simp
  | cons e tl ih =>
    obtain ⟨t, p⟩ := e
    simp only [List.map_cons, List.nodup_cons] at hnd
    have hstep : termRowCount info (delStep cntC info tg st (t, p)) t₀
        + (if t₀ = t then 1 else 0) = termRowCount info st t₀ :=
      keyCount_delStep hl hst t₀ (hpres (t, p) (List.mem_cons_self _ _))
    have hpres' : ∀ e ∈ tl,
        StoreGet (delStep cntC info tg st (t, p))
          (_TermTargetKey info tg e.1 e.2) ≠ none := by
      intro e he
      rw [get_delStep_other tg t p
        termTargetKey_ne_termCountKey
        termTargetKey_ne_targetTermKey
        (fun hc => hnd.1
          (List.mem_map.mpr ⟨e, he, (termTargetKey_inj hl hc).2.1⟩))]
      exact hpres e (List.mem_cons_of_mem _ he)
    have hih := ih (sorted_delStep hst tg (t, p)) hnd.2 hpres'
    rw [List.foldl_cons]
    have hmemif : (if t₀ ∈ ((t, p) :: tl).map Prod.fst then 1 else 0)
        = (if t₀ = t then 1 else 0)
          + (if t₀ ∈ tl.map Prod.fst then 1 else 0) := by
      by_cases h1 : t₀ = t
      · subst h1
        simp [hnd.1]
      · by_cases h2 : t₀ ∈ tl.map Prod.fst
        · simp [List.map_cons, List.mem_cons, h1, h2]
        · simp [List.map_cons, List.mem_cons, h1, h2]
    rw [hmemif, ← hstep, ← hih]
    ring

theorem foldl_addStep_rowCount (hl : IndexLawful info) {tg : K} {st : Store}
    (hst : SortedStore st) {al : List (T × P)} (hnd : (al.map Prod.fst).Nodup)
    (habs : ∀ e ∈ al, StoreGet st (_TermTargetKey info tg e.1 e.2) = none)
    (t₀ : T) :
    termRowCount info (al.foldl (addStep cntC info tg) st) t₀
      = termRowCount info st t₀
        + (if t₀ ∈ al.map Prod.fst then 1 else 0) := by
  induction al generalizing st with
  | nil => simp
  | cons e tl ih =>
    obtain ⟨t, p⟩ := e
    simp only [List.map_cons, List.nodup_cons] at hnd
    have hstep : termRowCount info (addStep cntC info tg st (t, p)) t₀
        = termRowCount info st t₀ + (if t₀ = t then 1 else 0) :=
      keyCount_addStep hl hst t₀ (habs (t, p) (List.mem_cons_self _ _))
    have habs' : ∀ e ∈ tl,
        StoreGet (addStep cntC info tg st (t, p))
          (_TermTargetKey info tg e.1 e.2) = none := by
      intro e he
      rw [get_addStep_other tg t p
        termTargetKey_ne_termCountKey
        termTargetKey_ne_targetTermKey
        (fun hc => hnd.1
          (List.mem_map.mpr ⟨e, he, (termTargetKey_inj hl hc).2.1⟩))]
      exact habs e (List.mem_cons_of_mem _ he)
    have hih := ih (sorted_addStep hst tg (t, p)) hnd.2 habs'
    rw [List.foldl_cons]
    have hmemif : (if t₀ ∈ ((t, p) :: tl).map Prod.fst then 1 else 0)
        = (if t₀ = t then 1 else 0)
          + (if t₀ ∈ tl.map Prod.fst then 1 else 0) := by
      by_cases h1 : t₀ = t
      · subst h1
        simp [hnd.1]
      · by_cases h2 : t₀ ∈ tl.map Prod.fst
        · simp [List.map_cons, List.mem_cons, h1, h2]
        · simp [List.map_cons, List.mem_cons, h1, h2]
    rw [hmemif, hih, hstep]
    ring

/-! ### Master characterization of `SetTargetTerms` -/

theorem delList_nodup {s : Store} (hl : IndexLawful info) (hs : SortedStore s)
    (hwf : ∀ e ∈ s, RowWF info cntC e) (tg : K) (terms : List (T × P)) :
    (((delListOf (existingList info s tg) terms)).map Prod.fst).Nodup :=
  List.Nodup.sublist
    (List.Sublist.map Prod.fst (List.filter_sublist _))
    (existingList_nodup hl hs hwf tg)

theorem addList_nodup {ex terms : List (T × P)}
    (hterms : (terms.map Prod.fst).Nodup) :
    ((addListOf ex terms).map Prod.fst).Nodup :=
  List.Nodup.sublist (List.Sublist.map Prod.fst (List.filter_sublist _)) hterms

/-- Entries of the delete list have both their rows in the pre-state. -/
theorem delList_present {s : Store} (hl : IndexLawful info)
    (hinv : IndexInv info cntC s) (tg : K) (terms : List (T × P)) :
    ∀ e ∈ delListOf (existingList info s tg) terms,
      StoreGet s (_TermTargetKey info tg e.1 e.2) ≠ none := by
  intro e he
  obtain ⟨t, p⟩ := e
  obtain ⟨hs, hwf, hagree, hcnt⟩ := hinv
  have hmem : (t, p) ∈ existingList info s tg := (List.mem_filter.mp he).1
  have hrev := (existingList_mem_iff hl hs hwf tg).mp hmem
  rw [hagree.1 tg t p hrev]
  simp

/-- A term/priority pair in the add list has no forward row in the
pre-state. -/
theorem addList_absent {s : Store} (hl : IndexLawful info)
    (hinv : IndexInv info cntC s) (tg : K) (terms : List (T × P)) :
    ∀ e ∈ addListOf (existingList info s tg) terms,
      StoreGet s (_TermTargetKey info tg e.1 e.2) = none := by
  intro e he
  obtain ⟨t, p⟩ := e
  obtain ⟨hs, hwf, hagree, hcnt⟩ := hinv
  rcases List.mem_filter.mp he with ⟨hmem, hcond⟩
  cases hfwd : StoreGet s (_TermTargetKey info tg t p) with
  | none => rfl
  | some v =>
    exfalso
    have hrev := hagree.2 tg t p (by rw [hfwd]; simp)
    have hE : (t, p) ∈ existingList info s tg :=
      (existingList_mem_iff hl hs hwf tg).mpr hrev
    have halk : alookup (existingList info s tg) t = some p :=
      (alookup_some_iff (existingList_nodup hl hs hwf tg)).mpr hE
    simp only [halk] at hcond
    simp at hcond

/-- A pair in the add list still has no forward row after the delete
phase (the delete phase only removes rows). -/
theorem addList_absent_after_del {s : Store} (hl : IndexLawful info)
    (hinv : IndexInv info cntC s) (tg : K) (terms : List (T × P)) :
    ∀ e ∈ addListOf (existingList info s tg) terms,
      StoreGet ((delListOf (existingList info s tg) terms).foldl
          (delStep cntC info tg) s)
        (_TermTargetKey info tg e.1 e.2) = none := by
  intro e he
  obtain ⟨t, p⟩ := e
  have habs := addList_absent hl hinv tg terms (t, p) he
  obtain ⟨hs, hwf, hagree, hcnt⟩ := hinv
  rw [foldl_delStep_frame ?_]
  · exact habs
  · intro e' he'
    refine ⟨termTargetKey_ne_termCountKey, termTargetKey_ne_targetTermKey, ?_⟩
    intro hc
    rcases termTargetKey_inj hl hc with ⟨_, ht, hp⟩
    obtain ⟨t', p'⟩ := e'
    simp only at ht hp
    subst ht
    subst hp
    exact delList_present hl ⟨hs, hwf, hagree, hcnt⟩ tg terms (t, p) he' habs

theorem setTargetTerms_get_rev {s : Store} (hl : IndexLawful info)
    (hinv : IndexInv info cntC s) {terms : List (T × P)}
    (hterms : (terms.map Prod.fst).Nodup) (tg : K) (t : T) :
    StoreGet (SetTargetTerms cntC info s tg terms) (_TargetTermKey info tg t)
      = Option.map info.priorityPackFn.enc (alookup terms t) := by
  obtain ⟨hs, hwf, hagree, hcnt⟩ := hinv
  have hndE := existingList_nodup hl hs hwf tg
  rw [setTargetTerms_unfold hl hs hwf]
  cases halk : alookup terms t with
  | some p =>
    have hterm_mem : (t, p) ∈ terms := (alookup_some_iff hterms).mp halk
    by_cases hEt : alookup (existingList info s tg) t = some p
    · have htA : t ∉ (addListOf (existingList info s tg) terms).map Prod.fst := by
        intro hc
        rcases List.mem_map.mp hc with ⟨⟨t', p'⟩, hm, hfst⟩
        simp only at hfst
        subst hfst
        rcases List.mem_filter.mp hm with ⟨hmem', hcond⟩
        have hp' : p' = p := by
          have := (alookup_some_iff hterms).mpr hmem'
          rw [halk] at this
          cases this
          rfl
        subst hp'
        rw [hEt] at hcond
        simp at hcond
      have htD : t ∉ (delListOf (existingList info s tg) terms).map Prod.fst := by
        intro hc
        rcases List.mem_map.mp hc with ⟨⟨t', p'⟩, hm, hfst⟩
        simp only at hfst
        subst hfst
        rcases List.mem_filter.mp hm with ⟨hmem', hcond⟩
        have hp' : p' = p := by
          have := (alookup_some_iff hndE).mpr hmem'
          rw [hEt] at this
          cases this
          rfl
        subst hp'
        rw [halk] at hcond
        simp at hcond
      rw [foldl_addStep_frame (rev_frame_cond hl htA),
        foldl_delStep_frame (rev_frame_cond hl htD)]
      have := (existingList_mem_iff hl hs hwf tg).mp
        ((alookup_some_iff hndE).mp hEt)
      rw [this]
      rfl
    · have hmemA : (t, p) ∈ addListOf (existingList info s tg) terms := by
        refine List.mem_filter.mpr ⟨hterm_mem, ?_⟩
        cases hE2 : alookup (existingList info s tg) t with
        | none => rfl
        | some q =>
          have hqp : ¬ q = p := fun hc => hEt (by rw [hE2, hc])
          simp [hqp]
      rw [foldl_addStep_rev hl (addList_nodup hterms) hmemA]
      rfl
  | none =>
    have htnotterms : t ∉ terms.map Prod.fst := alookup_none_iff.mp halk
    have htA : t ∉ (addListOf (existingList info s tg) terms).map Prod.fst := by
      intro hc
      rcases List.mem_map.mp hc with ⟨e, hm, hfst⟩
      exact htnotterms
        (List.mem_map.mpr ⟨e, (List.mem_filter.mp hm).1, hfst⟩)
    rw [foldl_addStep_frame (rev_frame_cond hl htA)]
    by_cases hEt : alookup (existingList info s tg) t = none
    · have htD : t ∉ (delListOf (existingList info s tg) terms).map Prod.fst := by
        intro hc
        rcases List.mem_map.mp hc with ⟨e, hm, hfst⟩
        exact alookup_none_iff.mp hEt
          (List.mem_map.mpr ⟨e, (List.mem_filter.mp hm).1, hfst⟩)
      rw [foldl_delStep_frame (rev_frame_cond hl htD)]
      rw [(alookup_existing_none hl hs hwf tg).mp hEt]
      rfl
    · rcases Option.ne_none_iff_exists.mp hEt with ⟨q, hq⟩
      have hmemE : (t, q) ∈ existingList info s tg :=
        (alookup_some_iff hndE).mp hq.symm
      have hmemD : (t, q) ∈ delListOf (existingList info s tg) terms := by
        refine List.mem_filter.mpr ⟨hmemE, ?_⟩
        simp only [halk]
      rw [foldl_delStep_rev hl hs (delList_nodup hl hs hwf tg terms) hmemD]
      rfl

theorem unchanged_notin_addList {s : Store} (hl : IndexLawful info)
    (hs : SortedStore s) (hwf : ∀ e ∈ s, RowWF info cntC e)
    {terms : List (T × P)} (hterms : (terms.map Prod.fst).Nodup)
    {tg : K} {t : T} {p : P} (halk : alookup terms t = some p)
    (hEt : alookup (existingList info s tg) t = some p) :
    t ∉ (addListOf (existingList info s tg) terms).map Prod.fst := by
  intro hc
  rcases List.mem_map.mp hc with ⟨⟨t', p'⟩, hm, hfst⟩
  simp only at hfst
  subst hfst
  rcases List.mem_filter.mp hm with ⟨hmem', hcond⟩
  have hp' : p' = p := by
    have := (alookup_some_iff hterms).mpr hmem'
    rw [halk] at this
    cases this
    rfl
  subst hp'
  rw [hEt] at hcond
  simp at hcond

theorem unchanged_notin_delList {s : Store} (hl : IndexLawful info)
    (hs : SortedStore s) (hwf : ∀ e ∈ s, RowWF info cntC e)
    {terms : List (T × P)}
    {tg : K} {t : T} {p : P} (halk : alookup terms t = some p)
    (hEt : alookup (existingList info s tg) t = some p) :
    t ∉ (delListOf (existingList info s tg) terms).map Prod.fst := by
  intro hc
  rcases List.mem_map.mp hc with ⟨⟨t', p'⟩, hm, hfst⟩
  simp only at hfst
  subst hfst
  rcases List.mem_filter.mp hm with ⟨hmem', hcond⟩
  have hp' : p' = p := by
    have := (alookup_some_iff (existingList_nodup hl hs hwf tg)).mpr hmem'
    rw [hEt] at this
    cases this
    rfl
  subst hp'
  rw [halk] at hcond
  simp at hcond

theorem setTargetTerms_get_fwd {s : Store} (hl : IndexLawful info)
    (hinv : IndexInv info cntC s) {terms : List (T × P)}
    (hterms : (terms.map Prod.fst).Nodup) (tg : K) (t : T) (p : P) :
    StoreGet (SetTargetTerms cntC info s tg terms) (_TermTargetKey info tg t p)
      = if alookup terms t = some p then some [] else none := by
  obtain ⟨hs, hwf, hagree, hcnt⟩ := hinv
  have hndE := existingList_nodup hl hs hwf tg
  rw [setTargetTerms_unfold hl hs hwf]
  by_cases hmatch : alookup terms t = some p
  · rw [if_pos hmatch]
    have hterm_mem : (t, p) ∈ terms := (alookup_some_iff hterms).mp hmatch
    by_cases hEt : alookup (existingList info s tg) t = some p
    · rw [foldl_addStep_frame
        (fwd_frame_cond hl (unchanged_notin_addList hl hs hwf hterms hmatch hEt)),
        foldl_delStep_frame
        (fwd_frame_cond hl (unchanged_notin_delList hl hs hwf hmatch hEt))]
      exact hagree.1 tg t p ((existingList_mem_iff hl hs hwf tg).mp
        ((alookup_some_iff hndE).mp hEt))
    · have hmemA : (t, p) ∈ addListOf (existingList info s tg) terms := by
        refine List.mem_filter.mpr ⟨hterm_mem, ?_⟩
        cases hE2 : alookup (existingList info s tg) t with
        | none => rfl
        | some q =>
          have hqp : ¬ q = p := fun hc => hEt (by rw [hE2, hc])
          simp [hqp]
      rw [foldl_addStep_fwd hl (addList_nodup hterms) hmemA]
  · rw [if_neg hmatch]
    have hframeA : ∀ e ∈ addListOf (existingList info s tg) terms,
        _TermTargetKey info tg t p ≠ _TermCountKey info e.1
        ∧ _TermTargetKey info tg t p ≠ _TargetTermKey info tg e.1
        ∧ _TermTargetKey info tg t p ≠ _TermTargetKey info tg e.1 e.2 := by
      intro e he
      obtain ⟨t', p'⟩ := e
      refine ⟨termTargetKey_ne_termCountKey, termTargetKey_ne_targetTermKey, ?_⟩
      intro hc
      rcases termTargetKey_inj hl hc with ⟨_, ht, hp⟩
      simp only at ht hp
      subst ht
      subst hp
      exact hmatch ((alookup_some_iff hterms).mpr (List.mem_filter.mp he).1)
    rw [foldl_addStep_frame hframeA]
    by_cases hD : (t, p) ∈ delListOf (existingList info s tg) terms
    · rw [foldl_delStep_fwd hl hs (delList_nodup hl hs hwf tg terms) hD]
    · have hframeD : ∀ e ∈ delListOf (existingList info s tg) terms,
          _TermTargetKey info tg t p ≠ _TermCountKey info e.1
          ∧ _TermTargetKey info tg t p ≠ _TargetTermKey info tg e.1
          ∧ _TermTargetKey info tg t p ≠ _TermTargetKey info tg e.1 e.2 := by
        intro e he
        obtain ⟨t', p'⟩ := e
        refine ⟨termTargetKey_ne_termCountKey, termTargetKey_ne_targetTermKey, ?_⟩
        intro hc
        rcases termTargetKey_inj hl hc with ⟨_, ht, hp⟩
        simp only at ht hp
        subst ht
        subst hp
        exact hD he
      rw [foldl_delStep_frame hframeD]
      cases hfwd : StoreGet s (_TermTargetKey info tg t p) with
      | none => rfl
      | some v =>
        exfalso
        have hrev := hagree.2 tg t p (by rw [hfwd]; simp)
        have hmemE : (t, p) ∈ existingList info s tg :=
          (existingList_mem_iff hl hs hwf tg).mpr hrev
        apply hD
        refine List.mem_filter.mpr ⟨hmemE, ?_⟩
        cases halk2 : alookup terms t with
        | none => rfl
        | some np =>
          have hpn : ¬ p = np := fun hc => hmatch (by rw [halk2, hc])
          simp [hpn]

theorem setTargetTerms_get_other_rev {s : Store} (hl : IndexLawful info)
    (hs : SortedStore s) (hwf : ∀ e ∈ s, RowWF info cntC e)
    {terms : List (T × P)} {tg tg' : K} (hne : tg' ≠ tg) (t : T) :
    StoreGet (SetTargetTerms cntC info s tg terms) (_TargetTermKey info tg' t)
      = StoreGet s (_TargetTermKey info tg' t) := by
  rw [setTargetTerms_unfold hl hs hwf]
  have hcond : ∀ (l : List (T × P)), ∀ e ∈ l,
      _TargetTermKey info tg' t ≠ _TermCountKey info e.1
      ∧ _TargetTermKey info tg' t ≠ _TargetTermKey info tg e.1
      ∧ _TargetTermKey info tg' t ≠ _TermTargetKey info tg e.1 e.2 := by
    intro l e he
    refine ⟨targetTermKey_ne_termCountKey, ?_,
      fun hc => termTargetKey_ne_targetTermKey hc.symm⟩
    intro hc
    exact hne (targetTermKey_inj hl hc).1
  rw [foldl_addStep_frame (hcond _), foldl_delStep_frame (hcond _)]

theorem setTargetTerms_get_other_fwd {s : Store} (hl : IndexLawful info)
    (hs : SortedStore s) (hwf : ∀ e ∈ s, RowWF info cntC e)
    {terms : List (T × P)} {tg tg' : K} (hne : tg' ≠ tg) (t : T) (p : P) :
    StoreGet (SetTargetTerms cntC info s tg terms) (_TermTargetKey info tg' t p)
      = StoreGet s (_TermTargetKey info tg' t p) := by
  rw [setTargetTerms_unfold hl hs hwf]
  have hcond : ∀ (l : List (T × P)), ∀ e ∈ l,
      _TermTargetKey info tg' t p ≠ _TermCountKey info e.1
      ∧ _TermTargetKey info tg' t p ≠ _TargetTermKey info tg e.1
      ∧ _TermTargetKey info tg' t p ≠ _TermTargetKey info tg e.1 e.2 := by
    intro l e he
    refine ⟨termTargetKey_ne_termCountKey, termTargetKey_ne_targetTermKey, ?_⟩
    intro hc
    exact hne (termTargetKey_inj hl hc).1
  rw [foldl_addStep_frame (hcond _), foldl_delStep_frame (hcond _)]

theorem setTargetTerms_countOK {s : Store} (hl : IndexLawful info)
    (hcL : cntC.Lawful) (hinv : IndexInv info cntC s) {terms : List (T × P)}
    (hterms : (terms.map Prod.fst).Nodup) (tg : K) :
    CountOK info cntC (SetTargetTerms cntC info s tg terms) := by
  intro t
  obtain ⟨hs, hwf, hagree, hcnt⟩ := hinv
  have hndD := delList_nodup hl hs hwf tg terms
  have hndA : ((addListOf (existingList info s tg) terms).map Prod.fst).Nodup :=
    addList_nodup hterms
  have hs₁ : SortedStore ((delListOf (existingList info s tg) terms).foldl
      (delStep cntC info tg) s) :=
    foldl_sorted (fun st e h => sorted_delStep h tg e) hs _
  have hpres := delList_present hl ⟨hs, hwf, hagree, hcnt⟩ tg terms
  have habs₁ := addList_absent_after_del hl ⟨hs, hwf, hagree, hcnt⟩ tg terms
  rw [setTargetTerms_unfold hl hs hwf]
  have hrcD : termRowCount info ((delListOf (existingList info s tg) terms).foldl
        (delStep cntC info tg) s) t
      + (if t ∈ (delListOf (existingList info s tg) terms).map Prod.fst
          then 1 else 0)
      = termRowCount info s t :=
    foldl_delStep_rowCount hl hs hndD hpres t
  have hrcA : termRowCount info ((addListOf (existingList info s tg) terms).foldl
        (addStep cntC info tg)
        ((delListOf (existingList info s tg) terms).foldl
          (delStep cntC info tg) s)) t
      = termRowCount info ((delListOf (existingList info s tg) terms).foldl
          (delStep cntC info tg) s) t
        + (if t ∈ (addListOf (existingList info s tg) terms).map Prod.fst
            then 1 else 0) :=
    foldl_addStep_rowCount hl hs₁ hndA habs₁ t
  have hdecD : decodeCount cntC
      (StoreGet ((delListOf (existingList info s tg) terms).foldl
        (delStep cntC info tg) s) (_TermCountKey info t))
      = decodeCount cntC (StoreGet s (_TermCountKey info t))
        + (if t ∈ (delListOf (existingList info s tg) terms).map Prod.fst
            then -1 else 0) := by
    by_cases htd : t ∈ (delListOf (existingList info s tg) terms).map Prod.fst
    · rcases List.mem_map.mp htd with ⟨⟨t', p'⟩, hm, hfst⟩
      simp only at hfst
      subst hfst
      rw [foldl_delStep_cnt_mem hl hndD hm, decodeCount_enc hcL, if_pos htd]
    · rw [foldl_delStep_frame (cnt_frame_cond hl htd), if_neg htd]
      simp
  have hdecA : decodeCount cntC
      (StoreGet ((addListOf (existingList info s tg) terms).foldl
          (addStep cntC info tg)
          ((delListOf (existingList info s tg) terms).foldl
            (delStep cntC info tg) s)) (_TermCountKey info t))
      = decodeCount cntC
          (StoreGet ((delListOf (existingList info s tg) terms).foldl
            (delStep cntC info tg) s) (_TermCountKey info t))
        + (if t ∈ (addListOf (existingList info s tg) terms).map Prod.fst
            then 1 else 0) := by
    by_cases hta : t ∈ (addListOf (existingList info s tg) terms).map Prod.fst
    · rcases List.mem_map.mp hta with ⟨⟨t', p'⟩, hm, hfst⟩
      simp only at hfst
      subst hfst
      rw [foldl_addStep_cnt_mem hl hndA hm, decodeCount_enc hcL, if_pos hta]
    · rw [foldl_addStep_frame (cnt_frame_cond hl hta), if_neg hta]
      simp
  have h0 := hcnt t
  rw [hdecA, hdecD, h0]
  by_cases htd : t ∈ (delListOf (existingList info s tg) terms).map Prod.fst
  · by_cases hta : t ∈ (addListOf (existingList info s tg) terms).map Prod.fst
    · rw [if_pos htd, if_pos hta]
      rw [if_pos htd] at hrcD
      rw [if_pos hta] at hrcA
      rw [hrcA]
      omega
    · rw [if_pos htd, if_neg hta]
      rw [if_pos htd] at hrcD
      rw [if_neg hta] at hrcA
      rw [hrcA]
      omega
  · by_cases hta : t ∈ (addListOf (existingList info s tg) terms).map Prod.fst
    · rw [if_neg htd, if_pos hta]
      rw [if_neg htd] at hrcD
      rw [if_pos hta] at hrcA
      rw [hrcA]
      omega
    · rw [if_neg htd, if_neg hta]
      rw [if_neg htd] at hrcD
      rw [if_neg hta] at hrcA
      rw [hrcA]
      omega

/-- `SetTargetTerms` preserves the full index invariant. -/
theorem setTargetTerms_IndexInv {s : Store} (hl : IndexLawful info)
    (hcL : cntC.Lawful) (hinv : IndexInv info cntC s) {terms : List (T × P)}
    (hterms : (terms.map Prod.fst).Nodup) (tg : K) :
    IndexInv info cntC (SetTargetTerms cntC info s tg terms) := by
  obtain ⟨hs, hwf, hagree, hcnt⟩ := hinv
  refine ⟨?_, ?_, ⟨?_, ?_⟩, setTargetTerms_countOK hl hcL ⟨hs, hwf, hagree, hcnt⟩ hterms tg⟩
  · rw [setTargetTerms_unfold hl hs hwf]
    exact foldl_sorted (fun st e h => sorted_addStep h tg e)
      (foldl_sorted (fun st e h => sorted_delStep h tg e) hs _) _
  · rw [setTargetTerms_unfold hl hs hwf]
    exact foldl_rowWF (fun st e h => rowWF_addStep e h)
      (foldl_rowWF (fun st e h => rowWF_delStep e h) hwf _) _
  · intro tg₂ t p hrev
    by_cases htg : tg₂ = tg
    · subst htg
      rw [setTargetTerms_get_rev hl ⟨hs, hwf, hagree, hcnt⟩ hterms tg₂ t] at hrev
      cases halk : alookup terms t with
      | none => rw [halk] at hrev; cases hrev
      | some q =>
        rw [halk] at hrev
        simp only [Option.map_some'] at hrev
        have hq : q = p := PackCodec.enc_inj hl.2.2 (Option.some.inj hrev)
        subst hq
        rw [setTargetTerms_get_fwd hl ⟨hs, hwf, hagree, hcnt⟩ hterms tg₂ t q,
          if_pos halk]
    · rw [setTargetTerms_get_other_rev hl hs hwf htg t] at hrev
      rw [setTargetTerms_get_other_fwd hl hs hwf htg t p]
      exact hagree.1 tg₂ t p hrev
  · intro tg₂ t p hfwd
    by_cases htg : tg₂ = tg
    · subst htg
      rw [setTargetTerms_get_fwd hl ⟨hs, hwf, hagree, hcnt⟩ hterms tg₂ t p] at hfwd
      by_cases halk : alookup terms t = some p
      · rw [setTargetTerms_get_rev hl ⟨hs, hwf, hagree, hcnt⟩ hterms tg₂ t, halk]
        rfl
      · rw [if_neg halk] at hfwd
        exact absurd rfl hfwd
    · rw [setTargetTerms_get_other_fwd hl hs hwf htg t p] at hfwd
      rw [setTargetTerms_get_other_rev hl hs hwf htg t]
      exact hagree.2 tg₂ t p hfwd

/-- Index states reachable from the empty store by `SetTargetTerms`
calls (the Go `terms` map given as an association list with distinct
keys). -/
inductive Reachable (cntC : PackCodec Int) (info : IndexInfo K T P) : Store → Prop where
  | empty : Reachable cntC info []
  | step {s : Store} (tg : K) (terms : List (T × P))
      (hnd : (terms.map Prod.fst).Nodup) (h : Reachable cntC info s) :
      Reachable cntC info (SetTargetTerms cntC info s tg terms)

theorem reachable_IndexInv (hl : IndexLawful info) (hcL : cntC.Lawful)
    {s : Store} (h : Reachable cntC info s) : IndexInv info cntC s := by
  induction h with
  | empty => exact indexInv_empty
  | step tg terms hnd h ih => exact setTargetTerms_IndexInv hl hcL ih hnd tg

/-! ### Helpers for iteration claims -/

theorem bytesLt_cons_same (a : Nat) (x y : Bytes) :
    bytesLt (a :: x) (a :: y) = bytesLt x y := by
  simp [bytesLt]

theorem rawIterate_cursor0 {s : Store} {pfx cur : Bytes} (hcur : cur ≠ [])
    (vf : σ → Entry → σ) (init : σ) :
    rawIterateCore s pfx ⟨0, 0, cur, IterationDirection.regular⟩
        (visitOf vf) init
      = (((s.dropWhile (fun x => bytesLt x.1 cur)).takeWhile
            (matchPfx pfx)).foldl vf init,
        resumeOfRest ((s.dropWhile (fun x => bytesLt x.1 cur)).dropWhile
          (matchPfx pfx))) := by
  have h0 : rawIterateCore s pfx ⟨0, 0, cur, IterationDirection.regular⟩
      (visitOf vf) init
      = iterFinish (iterLoop pfx 0 (visitOf vf) init 0
        (s.dropWhile (fun x => bytesLt x.1 cur))) := by
    simp only [rawIterateCore, travStart, if_pos hcur]
    rfl
  rw [h0, iterLoop_noLimit, iterFinish_eq]

theorem two_mem_length {α : Type} {l : List α} {a b : α} (ha : a ∈ l)
    (hb : b ∈ l) (hne : a ≠ b) : 2 ≤ l.length := by
  induction l with
  | nil => cases ha
  | cons x tl ih =>
    rcases List.mem_cons.mp ha with rfl | ha'
    · rcases List.mem_cons.mp hb with rfl | hb'
      · exact absurd rfl hne
      · have := List.length_pos.mpr (List.ne_nil_of_mem hb')
        simp only [List.length_cons]
        omega
    · have := List.length_pos.mpr (List.ne_nil_of_mem ha')
      simp only [List.length_cons]
      omega

theorem seek_of_sorted_split {s A B : Store} {e : Entry} (hs : SortedStore s)
    (hsplit : s = A ++ e :: B) :
    s.dropWhile (fun x => bytesLt x.1 e.1) = e :: B := by
  subst hsplit
  refine dropWhile_seek_mem ?_
  intro a ha
  have := (List.pairwise_append.mp hs).2.2 a ha e (List.mem_cons_self _ _)
  exact this

theorem takeWhile_front {pfx : Bytes} {X R : Store}
    (hX : ∀ e ∈ X, matchPfx pfx e = true)
    (hR : ∀ e ∈ R, matchPfx pfx e = false) :
    (X ++ R).takeWhile (matchPfx pfx) = X := by
  rw [takeWhile_append_all R hX, takeWhile_nil_of_none hR, List.append_nil]

theorem rowWF_key_ne_nil {e : Entry} (h : RowWF info cntC e) : e.1 ≠ [] := by
  rcases h with ⟨tg, t, p, hk, _⟩ | ⟨tg, t, p, hk, _⟩ | ⟨t, n, hk, _⟩ <;>
    rw [hk] <;> simp [_TermTargetKey, _TargetTermKey, _TermCountKey]

theorem fwd_rows_shape {s : Store} (hl : IndexLawful info)
    (hwf : ∀ e ∈ s, RowWF info cntC e) (t : T) :
    ∀ e ∈ s.filter (fun e => (_TermKeyPrefix info t).isPrefixOf e.1),
      ∃ tg p, e = (_TermTargetKey info tg t p, []) := by
  intro e he
  rcases List.mem_filter.mp he with ⟨hmem, hm⟩
  rcases hwf e hmem with ⟨tg', t', p', hk, hv⟩ | ⟨tg', t', p', hk, hv⟩ | ⟨t', n, hk, hv⟩
  · rw [hk] at hm
    have ht' : t = t' := (termKeyPfx_fwd hl).mp hm
    subst ht'
    refine ⟨tg', p', ?_⟩
    obtain ⟨k, v⟩ := e
    simp only at hk hv
    rw [hk, hv]
  · rw [hk, termKeyPfx_not_rev] at hm
    cases hm
  · rw [hk, termKeyPfx_not_cnt] at hm
    cases hm

theorem fu16_enc_lt_iff {p q : Nat} :
    bytesLt (fu16Codec.enc p) (fu16Codec.enc q) = true ↔ p < q := by
  constructor
  · intro h
    rcases Nat.lt_trichotomy p q with hpq | hpq | hpq
    · exact hpq
    · subst hpq
      rw [bytesLt_irrefl] at h
      cases h
    · have := fu16Codec_enc_lt hpq
      rw [bytesLt_asymm this] at h
      cases h
  · exact fu16Codec_enc_lt

theorem fwdTargets_nodup {s : Store} (hl : IndexLawful info)
    (hinv : IndexInv info cntC s) (t : T) :
    ((s.filter (fun e => (_TermKeyPrefix info t).isPrefixOf e.1)).map
      (fun e => (_ReadTermTargetPriority info e.1).2.1)).Nodup := by
  obtain ⟨hs, hwf, hagree, hcnt⟩ := hinv
  rw [List.nodup_iff_sublist]
  intro a hsub
  have hpw : List.Pairwise
      (fun e₁ e₂ : Entry =>
        (fun e : Entry => (_ReadTermTargetPriority info e.1).2.1) e₁
        ≠ (fun e : Entry => (_ReadTermTargetPriority info e.1).2.1) e₂)
      (s.filter (fun e => (_TermKeyPrefix info t).isPrefixOf e.1)) := by
    have hps : List.Pairwise (fun a b : Entry => bytesLt a.1 b.1 = true)
        (s.filter (fun e => (_TermKeyPrefix info t).isPrefixOf e.1)) :=
      List.Pairwise.sublist (List.filter_sublist s) hs
    refine List.Pairwise.imp_of_mem ?_ hps
    intro e₁ e₂ h₁ h₂ hlt
    rcases fwd_rows_shape hl hwf t e₁ h₁ with ⟨tg₁, p₁, rfl⟩
    rcases fwd_rows_shape hl hwf t e₂ h₂ with ⟨tg₂, p₂, rfl⟩
    simp only [readTermTargetPriority_eq hl]
    intro hteq
    subst hteq
    have hget₁ : StoreGet s (_TermTargetKey info tg₁ t p₁) = some [] :=
      storeGet_of_mem hs (List.mem_filter.mp h₁).1
    have hget₂ : StoreGet s (_TermTargetKey info tg₁ t p₂) = some [] :=
      storeGet_of_mem hs (List.mem_filter.mp h₂).1
    have hrev₁ := hagree.2 tg₁ t p₁ (by rw [hget₁]; simp)
    have hrev₂ := hagree.2 tg₁ t p₂ (by rw [hget₂]; simp)
    rw [hrev₁] at hrev₂
    have hp : p₁ = p₂ := PackCodec.enc_inj hl.2.2 (Option.some.inj hrev₂)
    subst hp
    simp only at hlt
    rw [bytesLt_irrefl] at hlt
    cases hlt
  have hp2 := List.Pairwise.sublist hsub (List.pairwise_map.mpr hpw)
  rcases List.pairwise_cons.mp hp2 with ⟨hne, _⟩
  exact hne a (List.mem_cons_self _ _) rfl

/-- Number of distinct targets discovered by scanning the forward rows
of a term (the claim's counting side). -/
def distinctTargetCount (info : IndexInfo K T P) (s : Store) (t : T) : Nat :=
  (((s.filter (fun e => (_TermKeyPrefix info t).isPrefixOf e.1)).map
    (fun e => (_ReadTermTargetPriority info e.1).2.1)).dedup).length

theorem revKey_not_lt_termPfx {tg : K} {t t' : T} :
    bytesLt (_TargetTermKey info tg t) (_TermKeyPrefix info t') = false := by
  simp [_TargetTermKey, _TermKeyPrefix, IndexTargetPrefix, IndexTermPrefix, bytesLt]

theorem cntKey_not_lt_termPfx {t t' : T} :
    bytesLt (_TermCountKey info t) (_TermKeyPrefix info t') = false := by
  simp [_TermCountKey, _TermKeyPrefix, IndexCountPrefix, IndexTermPrefix, bytesLt]

/-- In an invariant-satisfying store, a non-empty forward-row block of a
term is followed by at least two further rows (its reverse row and its
count row live beyond the block). -/
theorem matching_block_followed {s : Store} (hl : IndexLawful info)
    (hinv : IndexInv info cntC s) (t : T)
    (hM : (s.dropWhile (fun x => bytesLt x.1 (_TermKeyPrefix info t))).takeWhile
        (matchPfx (_TermKeyPrefix info t)) ≠ []) :
    2 ≤ ((s.dropWhile (fun x => bytesLt x.1 (_TermKeyPrefix info t))).dropWhile
        (matchPfx (_TermKeyPrefix info t))).length := by
  obtain ⟨hs, hwf, hagree, hcnt⟩ := hinv
  have hfil : s.filter (matchPfx (_TermKeyPrefix info t))
      = (s.dropWhile (fun x => bytesLt x.1 (_TermKeyPrefix info t))).takeWhile
        (matchPfx (_TermKeyPrefix info t)) :=
    filter_eq_trav_takeWhile hs _
  rcases List.exists_mem_of_ne_nil _ hM with ⟨m, hm⟩
  have hmfil : m ∈ s.filter (matchPfx (_TermKeyPrefix info t)) := by
    rw [hfil]; exact hm
  rcases fwd_rows_shape hl hwf t m hmfil with ⟨tg, p, rfl⟩
  have hfwdget : StoreGet s (_TermTargetKey info tg t p) = some [] :=
    storeGet_of_mem hs (List.mem_filter.mp hmfil).1
  have hrevget := hagree.2 tg t p (by rw [hfwdget]; simp)
  have hrevmem : (_TargetTermKey info tg t, info.priorityPackFn.enc p) ∈ s :=
    storeGet_mem hrevget
  have hcount := hcnt t
  have hrc : 1 ≤ termRowCount info s t := by
    unfold termRowCount keyCount
    rw [List.countP_eq_length_filter]
    have : (s.filter (fun e => (_TermKeyPrefix info t).isPrefixOf e.1)).length
        = (s.filter (matchPfx (_TermKeyPrefix info t))).length := rfl
    rw [this, hfil]
    exact List.length_pos.mpr hM
  have hcntrow : StoreGet s (_TermCountKey info t) ≠ none := by
    intro hc
    rw [hc] at hcount
    simp [decodeCount] at hcount
    omega
  rcases Option.ne_none_iff_exists.mp hcntrow with ⟨w, hw⟩
  have hcntmem : (_TermCountKey info t, w) ∈ s := storeGet_mem hw.symm
  -- both extra rows sit in the part after the matching block
  have hsplit : s = s.takeWhile (fun x => bytesLt x.1 (_TermKeyPrefix info t))
      ++ ((s.dropWhile (fun x => bytesLt x.1 (_TermKeyPrefix info t))).takeWhile
          (matchPfx (_TermKeyPrefix info t))
        ++ (s.dropWhile (fun x => bytesLt x.1 (_TermKeyPrefix info t))).dropWhile
          (matchPfx (_TermKeyPrefix info t))) := by
    rw [List.takeWhile_append_dropWhile, List.takeWhile_append_dropWhile]
  have hinR : ∀ (e : Entry), e ∈ s → matchPfx (_TermKeyPrefix info t) e = false →
      bytesLt e.1 (_TermKeyPrefix info t) = false →
      e ∈ (s.dropWhile (fun x => bytesLt x.1 (_TermKeyPrefix info t))).dropWhile
        (matchPfx (_TermKeyPrefix info t)) := by
    intro e hmem hnm hnlt
    rw [hsplit] at hmem
    rcases List.mem_append.mp hmem with h | h
    · have := List.mem_takeWhile_imp h
      rw [hnlt] at this
      cases this
    · rcases List.mem_append.mp h with h | h
      · have := List.mem_takeWhile_imp h
        rw [hnm] at this
        cases this
      · exact h
  refine two_mem_length
    (hinR (_TargetTermKey info tg t, info.priorityPackFn.enc p) hrevmem
      (by simp only [matchPfx]; exact termKeyPfx_not_rev)
      revKey_not_lt_termPfx)
    (hinR (_TermCountKey info t, w) hcntmem
      (by simp only [matchPfx]; exact termKeyPfx_not_cnt)
      cntKey_not_lt_termPfx) ?_
  intro hc
  have := congrArg Prod.fst hc
  simp only at this
  exact targetTermKey_ne_termCountKey this


/-- Pagination correctness of the raw engine on a sorted store: one
page of `L` entries followed by a continuation from the returned resume
key yields, in concatenation, exactly the unlimited traversal — as long
as a non-empty matching block is followed by at least two further
entries (true in every invariant-satisfying index store, where the
reverse row and the count row of the term follow the forward block). -/
theorem rawIterate_pagination {α : Type} {s : Store} (hs : SortedStore s)
    {pfx : Bytes} (g : Entry → α) {L : Nat} (hL : 0 < L)
    (hkeys : ∀ e ∈ s, e.1 ≠ [])
    (hfollow : (s.dropWhile (fun x => bytesLt x.1 pfx)).takeWhile (matchPfx pfx) ≠ []
      → 2 ≤ ((s.dropWhile (fun x => bytesLt x.1 pfx)).dropWhile (matchPfx pfx)).length) :
    (rawIterateCore s pfx ⟨L, 0, [], IterationDirection.regular⟩
        (visitOf (fun a e => a ++ [g e])) []).1
      ++ (rawIterateCore s pfx
          ⟨0, 0, (rawIterateCore s pfx ⟨L, 0, [], IterationDirection.regular⟩
              (visitOf (fun a e => a ++ [g e])) []).2.getD [],
            IterationDirection.regular⟩ (visitOf (fun a e => a ++ [g e])) []).1
      = (rawIterateCore s pfx zeroWindow (visitOf (fun a e => a ++ [g e])) []).1 := by
  set trav := s.dropWhile (fun x => bytesLt x.1 pfx) with htravdef
  set M := trav.takeWhile (matchPfx pfx) with hMdef
  set R := trav.dropWhile (matchPfx pfx) with hRdef
  have htravsplit : trav = M ++ R := (List.takeWhile_append_dropWhile _ _).symm
  have hssplit : s = s.takeWhile (fun x => bytesLt x.1 pfx) ++ trav := by
    rw [htravdef, List.takeWhile_append_dropWhile]
  have htravsub : List.Sublist trav s := List.dropWhile_sublist _
  have hMsub : List.Sublist M trav := List.takeWhile_sublist _
  have hRsub : List.Sublist R trav := List.dropWhile_sublist _
  have hMmatch : ∀ e ∈ M, matchPfx pfx e = true := fun e he =>
    List.mem_takeWhile_imp he
  have hRnot : ∀ e ∈ R, matchPfx pfx e = false :=
    sorted_dropWhile_match_none (List.Pairwise.sublist htravsub hs)
      (sorted_dropWhile_ge hs pfx)
  have hfirst : rawIterateCore s pfx ⟨L, 0, [], IterationDirection.regular⟩
      (visitOf (fun a e => a ++ [g e])) []
      = ((M.take L).foldl (fun a e => a ++ [g e]) [],
        resumeOfRest (if L ≤ M.length then trav.drop (L - 1) else R)) := by
    have e1 : rawIterateCore s pfx ⟨L, 0, [], IterationDirection.regular⟩
        (visitOf (fun a e => a ++ [g e])) []
        = iterFinish (iterLoop pfx L (visitOf (fun a e => a ++ [g e])) [] 0 trav) := rfl
    rw [e1, iterLoop_limit _ _ _ _ _ hL, iterFinish_eq]
    simp only [Nat.sub_zero]
  have hfull : (rawIterateCore s pfx zeroWindow
      (visitOf (fun a e => a ++ [g e])) []).1 = M.map g := by
    have e3 : rawIterateCore s pfx zeroWindow
        (visitOf (fun a e => a ++ [g e])) []
        = iterFinish (iterLoop pfx 0 (visitOf (fun a e => a ++ [g e])) [] 0 trav) := rfl
    rw [e3, iterLoop_noLimit, iterFinish_eq]
    simp only
    rw [foldl_snoc_collector]
    simp
  rw [hfull, hfirst]
  simp only
  rw [foldl_snoc_collector, List.nil_append]
  by_cases hcond : L ≤ M.length
  · rw [if_pos hcond]
    by_cases hlt : L < M.length
    · -- the resume key is the key of the (L+1)-st matching entry
      have hdropL : M.drop L = M[L] :: M.drop (L + 1) :=
        List.drop_eq_getElem_cons hlt
      have hdropL1 : trav.drop (L - 1) = M.drop (L - 1) ++ R := by
        rw [htravsplit, List.drop_append_of_le_length (by omega)]
      have hdropL1M : M.drop (L - 1) = M[L - 1] :: M.drop L := by
        have h1 : L - 1 < M.length := by omega
        have h2 : L - 1 + 1 = L := by omega
        rw [List.drop_eq_getElem_cons h1, h2]
      have hresume : resumeOfRest (trav.drop (L - 1)) = some (M[L].1) := by
        rw [hdropL1, hdropL1M, hdropL]
        rfl
      rw [hresume]
      simp only [Option.getD_some]
      have hfmemM : M[L] ∈ M := List.getElem_mem hlt
      have hfmem : M[L] ∈ s :=
        List.Sublist.mem (List.Sublist.mem hfmemM hMsub) htravsub
      have hc2 : (M[L]).1 ≠ [] := hkeys _ hfmem
      rw [rawIterate_cursor0 hc2]
      simp only
      have hM2 : M = M.take L ++ (M[L] :: M.drop (L + 1)) := by
        conv_lhs => rw [← List.take_append_drop L M]
        rw [hdropL]
      have hsplit2 : s = (s.takeWhile (fun x => bytesLt x.1 pfx) ++ M.take L)
          ++ M[L] :: (M.drop (L + 1) ++ R) := by
        conv_lhs => rw [hssplit, htravsplit, hM2]
        simp only [List.append_assoc, List.cons_append]
      have hseek : s.dropWhile (fun x => bytesLt x.1 (M[L]).1)
          = M[L] :: (M.drop (L + 1) ++ R) :=
        seek_of_sorted_split hs hsplit2
      rw [hseek]
      have hX : ∀ e ∈ M[L] :: M.drop (L + 1), matchPfx pfx e = true := by
        intro e he
        refine hMmatch e ?_
        rcases List.mem_cons.mp he with rfl | hmem
        · exact hfmemM
        · exact List.Sublist.mem hmem (List.drop_sublist _ _)
      have htake2 : (M[L] :: (M.drop (L + 1) ++ R)).takeWhile (matchPfx pfx)
          = M[L] :: M.drop (L + 1) := by
        have h := takeWhile_front hX hRnot
        rw [List.cons_append] at h
        exact h
      rw [htake2, foldl_snoc_collector, List.nil_append]
      rw [← List.map_append]
      congr 1
      rw [← hdropL]
      exact List.take_append_drop L M
    · -- the page consumed the whole block; the resume key (if any) is
      -- the first non-matching key, and the continuation yields nothing
      have hLeq : L = M.length := by omega
      have hdropL1 : trav.drop (L - 1) = M.drop (L - 1) ++ R := by
        rw [htravsplit, List.drop_append_of_le_length (by omega)]
      have hdropL1M : M.drop (L - 1) = [M[L - 1]] := by
        have h1 : L - 1 < M.length := by omega
        rw [List.drop_eq_getElem_cons h1, List.drop_eq_nil_of_le (by omega)]
      have htakeL : M.take L = M := List.take_of_length_le (by omega)
      cases hRcase : R with
      | nil =>
        -- impossible unless M is empty, and M has length L > 0
        exfalso
        have hMne : M ≠ [] := by
          intro hc
          rw [hc] at hLeq
          simp at hLeq
          omega
        have := hfollow hMne
        rw [hRcase] at this
        simp at this
      | cons r Rtl =>
        have hresume : resumeOfRest (trav.drop (L - 1)) = some r.1 := by
          rw [hdropL1, hdropL1M, hRcase]
          rfl
        rw [hresume]
        simp only [Option.getD_some]
        have hrR : r ∈ R := by rw [hRcase]; exact List.mem_cons_self _ _
        have hrmem : r ∈ s :=
          List.Sublist.mem (List.Sublist.mem hrR hRsub) htravsub
        have hc2 : r.1 ≠ [] := hkeys _ hrmem
        rw [rawIterate_cursor0 hc2]
        simp only
        have hsplit2 : s = (s.takeWhile (fun x => bytesLt x.1 pfx) ++ M)
            ++ r :: Rtl := by
          conv_lhs => rw [hssplit, htravsplit, hRcase]
          simp only [List.append_assoc, List.cons_append]
        have hseek : s.dropWhile (fun x => bytesLt x.1 r.1) = r :: Rtl :=
          seek_of_sorted_split hs hsplit2
        rw [hseek]
        have htake2 : (r :: Rtl).takeWhile (matchPfx pfx) = [] := by
          refine takeWhile_nil_of_none ?_
          intro e he
          refine hRnot e ?_
          rw [hRcase]
          exact he
        rw [htake2]
        simp [htakeL]
  · rw [if_neg hcond]
    have htakeL : M.take L = M := List.take_of_length_le (by omega)
    cases hRcase : R with
    | nil =>
      have hMnil : M = [] := by
        by_contra hMne
        have := hfollow hMne
        rw [hRcase] at this
        simp at this
      simp only [show resumeOfRest ([] : List Entry) = none from rfl,
        Option.getD_none]
      have e2 : rawIterateCore s pfx ⟨0, 0, [], IterationDirection.regular⟩
          (visitOf (fun a e => a ++ [g e])) []
          = iterFinish (iterLoop pfx 0 (visitOf (fun a e => a ++ [g e])) [] 0 trav) := rfl
      rw [e2, iterLoop_noLimit, iterFinish_eq]
      simp only
      rw [foldl_snoc_collector, List.nil_append, ← hMdef, htakeL]
      simp [hMnil]
    | cons r Rtl =>
      cases hRtl : Rtl with
      | nil =>
        -- a single trailing entry: impossible with a non-empty block,
        -- and with an empty block everything is empty
        have hMnil : M = [] := by
          by_contra hMne
          have := hfollow hMne
          rw [hRcase, hRtl] at this
          simp at this
        simp only [show resumeOfRest [r] = none from rfl, Option.getD_none]
        have e2 : rawIterateCore s pfx ⟨0, 0, [], IterationDirection.regular⟩
            (visitOf (fun a e => a ++ [g e])) []
            = iterFinish (iterLoop pfx 0 (visitOf (fun a e => a ++ [g e])) [] 0 trav) := rfl
        rw [e2, iterLoop_noLimit, iterFinish_eq]
        simp only
        rw [foldl_snoc_collector, List.nil_append, ← hMdef, htakeL]
        simp [hMnil]
      | cons r₂ Rtl₂ =>
        simp only [show resumeOfRest (r :: r₂ :: Rtl₂) = some r₂.1 from rfl,
          Option.getD_some]
        have hr₂R : r₂ ∈ R := by
          rw [hRcase, hRtl]
          exact List.mem_cons_of_mem _ (List.mem_cons_self _ _)
        have hr₂mem : r₂ ∈ s :=
          List.Sublist.mem (List.Sublist.mem hr₂R hRsub) htravsub
        have hc2 : r₂.1 ≠ [] := hkeys _ hr₂mem
        rw [rawIterate_cursor0 hc2]
        simp only
        have hsplit2 : s = (s.takeWhile (fun x => bytesLt x.1 pfx) ++ (M ++ [r]))
            ++ r₂ :: Rtl₂ := by
          conv_lhs => rw [hssplit, htravsplit, hRcase, hRtl]
          simp
        have hseek : s.dropWhile (fun x => bytesLt x.1 r₂.1) = r₂ :: Rtl₂ :=
          seek_of_sorted_split hs hsplit2
        rw [hseek]
        have htake2 : (r₂ :: Rtl₂).takeWhile (matchPfx pfx) = [] := by
          refine takeWhile_nil_of_none ?_
          intro e he
          refine hRnot e ?_
          rw [hRcase, hRtl]
          exact List.mem_cons_of_mem _ he
        rw [htake2]
        simp [htakeL]

/-- C7: for every term t, every limit L > 0, and every index state
(satisfying the index invariant, as every state produced by the index
operations does), calling IterateTerm with a window of limit L and then
calling again with the returned resume key as the window's cursor
yields, in concatenation, exactly the sequence of (target, priority)
pairs that a single unlimited IterateTerm(t) yields. -/
theorem claim_C7_pagination_concat {s : Store} (hl : IndexLawful info)
    (hinv : IndexInv info cntC s) {L : Nat} (hL : 0 < L) (t : T) :
    (iterateTermPairs info s t ⟨L, 0, [], IterationDirection.regular⟩).1
      ++ (iterateTermPairs info s t
          ⟨0, 0, (iterateTermPairs info s t
              ⟨L, 0, [], IterationDirection.regular⟩).2.getD [],
            IterationDirection.regular⟩).1
      = (iterateTermPairs info s t zeroWindow).1 := by
  have hkeys : ∀ e ∈ s, e.1 ≠ [] := fun e he => rowWF_key_ne_nil (hinv.2.1 e he)
  have heq : ∀ w : Window, iterateTermPairs info s t w
      = rawIterateCore s (_TermKeyPrefix info t) w
        (visitOf (fun (a : List (K × P)) (e : Entry) =>
          a ++ [((_ReadTermTargetPriority info e.1).2.1,
                 (_ReadTermTargetPriority info e.1).2.2)])) [] := fun w => rfl
  simp only [heq]
  exact rawIterate_pagination hinv.1
    (fun e => ((_ReadTermTargetPriority info e.1).2.1,
               (_ReadTermTargetPriority info e.1).2.2))
    hL hkeys (matching_block_followed hl hinv t)

theorem claim_C7_witness :
    IndexLawful scenarioInfo
    ∧ IndexInv scenarioInfo countCodec scenarioS1
    ∧ 0 < 1
    ∧ ((iterateTermPairs scenarioInfo scenarioS1 101
          ⟨1, 0, [], IterationDirection.regular⟩).1
        ++ (iterateTermPairs scenarioInfo scenarioS1 101
            ⟨0, 0, (iterateTermPairs scenarioInfo scenarioS1 101
                ⟨1, 0, [], IterationDirection.regular⟩).2.getD [],
              IterationDirection.regular⟩).1
        = (iterateTermPairs scenarioInfo scenarioS1 101 zeroWindow).1) := by
  have hl : IndexLawful scenarioInfo :=
    ⟨byteCodec_lawful, byteCodec_lawful, fu16Codec_lawful⟩
  have hreach : Reachable countCodec scenarioInfo scenarioS1 :=
    Reachable.step 10 [(101, 4), (103, 7)] (by decide)
      (Reachable.step 12 [(100, 2), (102, 10), (101, 5)] (by decide)
        (Reachable.step 10 [(100, 1), (101, 2)] (by decide) Reachable.empty))
  have hinv : IndexInv scenarioInfo countCodec scenarioS1 :=
    reachable_IndexInv hl countCodec_lawful hreach
  exact ⟨hl, hinv, by decide, claim_C7_pagination_concat hl hinv (by decide) 101⟩

/-- C1: after `SetTargetTerms(tx, info, target, desired)` returns, the
set of terms paired with the target equals exactly the key-set of the
desired map with the supplied priorities — the reverse row of a term
under the target exists iff the term is a key of `desired` and then
holds exactly the encoded desired priority, and the forward row of a
(term, priority) pair under the target exists iff `desired` maps the
term to that priority — and the reverse and forward rows of every other
target are unchanged. -/
theorem claim_C1_setTargetTerms_contract {s : Store} (hl : IndexLawful info)
    (hcL : cntC.Lawful) (hinv : IndexInv info cntC s)
    {terms : List (T × P)} (hterms : (terms.map Prod.fst).Nodup) (tg : K) :
    (∀ t : T, StoreGet (SetTargetTerms cntC info s tg terms)
        (_TargetTermKey info tg t)
        = Option.map info.priorityPackFn.enc (alookup terms t))
    ∧ (∀ (t : T) (p : P), StoreGet (SetTargetTerms cntC info s tg terms)
        (_TermTargetKey info tg t p)
        = if alookup terms t = some p then some [] else none)
    ∧ (∀ tg₂ : K, tg₂ ≠ tg →
        (∀ t : T, StoreGet (SetTargetTerms cntC info s tg terms)
            (_TargetTermKey info tg₂ t) = StoreGet s (_TargetTermKey info tg₂ t))
        ∧ (∀ (t : T) (p : P), StoreGet (SetTargetTerms cntC info s tg terms)
            (_TermTargetKey info tg₂ t p)
            = StoreGet s (_TermTargetKey info tg₂ t p))) := by
  refine ⟨fun t => setTargetTerms_get_rev hl hinv hterms tg t,
    fun t p => setTargetTerms_get_fwd hl hinv hterms tg t p,
    fun tg₂ hne => ⟨fun t => ?_, fun t p => ?_⟩⟩
  · exact setTargetTerms_get_other_rev hl hinv.1 hinv.2.1 hne t
  · exact setTargetTerms_get_other_fwd hl hinv.1 hinv.2.1 hne t p

theorem claim_C1_witness :
    IndexInv scenarioInfo countCodec []
    ∧ (([((5 : Nat), (9 : Nat))].map Prod.fst).Nodup)
    ∧ StoreGet (SetTargetTerms countCodec scenarioInfo [] 7 [(5, 9)])
        (_TargetTermKey scenarioInfo 7 5) = some (fu16Codec.enc 9)
    ∧ StoreGet (SetTargetTerms countCodec scenarioInfo [] 7 [(5, 9)])
        (_TermTargetKey scenarioInfo 7 5 9) = some []
    ∧ StoreGet (SetTargetTerms countCodec scenarioInfo [] 7 [(5, 9)])
        (_TargetTermKey scenarioInfo 8 5)
      = StoreGet [] (_TargetTermKey scenarioInfo 8 5) := by
  have hl : IndexLawful scenarioInfo :=
    ⟨byteCodec_lawful, byteCodec_lawful, fu16Codec_lawful⟩
  have hinv0 : IndexInv scenarioInfo countCodec [] := indexInv_empty
  have hnd : (([((5 : Nat), (9 : Nat))]).map Prod.fst).Nodup := by decide
  have h := claim_C1_setTargetTerms_contract hl countCodec_lawful hinv0 hnd 7
  refine ⟨hinv0, hnd, ?_, ?_, ?_⟩
  · rw [h.1 5]; decide
  · rw [h.2.1 5 9]; decide
  · exact (h.2.2 8 (by decide)).1 5

/-- C5: in every index state reachable by the index operations from the
empty state, every reverse row (key 0x02‖enc_target‖enc_term) has
exactly one matching forward row 0x01‖enc_term‖enc_priority(p)‖enc_target
— its value decodes to that same priority p and the forward row's value
is empty — and conversely every forward row has its matching reverse
row carrying its priority. -/
theorem claim_C5_fwd_rev_agree {s : Store} (hl : IndexLawful info)
    (hcL : cntC.Lawful) (hr : Reachable cntC info s) :
    (∀ (tg : K) (t : T) (v : Bytes),
      StoreGet s (_TargetTermKey info tg t) = some v →
      ∃! p : P, StoreGet s (_TermTargetKey info tg t p) = some []
        ∧ v = info.priorityPackFn.enc p)
    ∧ (∀ (tg : K) (t : T) (p : P) (v : Bytes),
      StoreGet s (_TermTargetKey info tg t p) = some v →
      v = [] ∧ StoreGet s (_TargetTermKey info tg t)
        = some (info.priorityPackFn.enc p)) := by
  obtain ⟨hs, hwf, hagree, hcnt⟩ := reachable_IndexInv hl hcL hr
  constructor
  · intro tg t v hrev
    have hmem := storeGet_mem hrev
    rcases hwf _ hmem with ⟨tg₂, t₂, p₂, hk, hv⟩ | ⟨tg₂, t₂, p₂, hk, hv⟩
      | ⟨t₂, n, hk, hv⟩
    · have hk₂ : _TargetTermKey info tg t = _TermTargetKey info tg₂ t₂ p₂ := hk
      exact (termTargetKey_ne_targetTermKey hk₂.symm).elim
    · have hk₂ : _TargetTermKey info tg t = _TargetTermKey info tg₂ t₂ := hk
      obtain ⟨htg, ht⟩ := targetTermKey_inj hl hk₂
      have hv₂ : v = info.priorityPackFn.enc p₂ := hv
      refine ⟨p₂, ⟨?_, hv₂⟩, ?_⟩
      · refine hagree.1 tg t p₂ ?_
        rw [hrev, hv₂]
      · rintro q ⟨hfq, hvq⟩
        exact PackCodec.enc_inj hl.2.2 (hvq.symm.trans hv₂)
    · have hk₂ : _TargetTermKey info tg t = _TermCountKey info t₂ := hk
      exact (targetTermKey_ne_termCountKey hk₂).elim
  · intro tg t p v hfwd
    have hmem := storeGet_mem hfwd
    rcases hwf _ hmem with ⟨tg₂, t₂, p₂, hk, hv⟩ | ⟨tg₂, t₂, p₂, hk, hv⟩
      | ⟨t₂, n, hk, hv⟩
    · have hv₂ : v = [] := hv
      refine ⟨hv₂, hagree.2 tg t p ?_⟩
      rw [hfwd]
      exact Option.some_ne_none v
    · have hk₂ : _TermTargetKey info tg t p = _TargetTermKey info tg₂ t₂ := hk
      exact (termTargetKey_ne_targetTermKey hk₂).elim
    · have hk₂ : _TermTargetKey info tg t p = _TermCountKey info t₂ := hk
      exact (termTargetKey_ne_termCountKey hk₂).elim

theorem claim_C5_witness :
    IndexLawful scenarioInfo ∧ countCodec.Lawful
    ∧ Reachable countCodec scenarioInfo scenarioS1
    ∧ (StoreGet scenarioS1 (_TargetTermKey scenarioInfo 12 101)
        = some (fu16Codec.enc 5)
      → ∃! p : Nat, StoreGet scenarioS1 (_TermTargetKey scenarioInfo 12 101 p)
          = some [] ∧ fu16Codec.enc 5 = fu16Codec.enc p) := by
  have hl : IndexLawful scenarioInfo :=
    ⟨byteCodec_lawful, byteCodec_lawful, fu16Codec_lawful⟩
  have hreach : Reachable countCodec scenarioInfo scenarioS1 :=
    Reachable.step 10 [(101, 4), (103, 7)] (by decide)
      (Reachable.step 12 [(100, 2), (102, 10), (101, 5)] (by decide)
        (Reachable.step 10 [(100, 1), (101, 2)] (by decide) Reachable.empty))
  exact ⟨hl, countCodec_lawful, hreach,
    (claim_C5_fwd_rev_agree hl countCodec_lawful hreach).1 12 101 (fu16Codec.enc 5)⟩

theorem count_eq_of_inv {s : Store} (hl : IndexLawful info)
    (hinv : IndexInv info cntC s) (t : T) :
    (ReadTermCount cntC info s t 0).2 = (distinctTargetCount info s t : Int) := by
  have hcnt := hinv.2.2.2 t
  have h₁ : (ReadTermCount cntC info s t 0).2
      = decodeCount cntC (StoreGet s (_TermCountKey info t)) := by
    cases hg : StoreGet s (_TermCountKey info t) with
    | none => simp [ReadTermCount, decodeCount, hg]
    | some bs =>
      cases hdec : cntC.dec bs with
      | none => simp [ReadTermCount, decodeCount, hg, hdec]
      | some pr => cases pr; simp [ReadTermCount, decodeCount, hg, hdec]
  have h₂ : distinctTargetCount info s t = termRowCount info s t := by
    unfold distinctTargetCount termRowCount keyCount
    rw [List.dedup_eq_self.mpr (fwdTargets_nodup hl hinv t)]
    rw [List.length_map, List.countP_eq_length_filter]
  rw [h₁, hcnt, h₂]

/-- C4: in every index state reachable from the empty state by
SetTargetTerms calls, for every term t the value returned by
ReadTermCount(t) (a missing count row read as the default 0) equals the
number of distinct targets among the forward rows carrying the prefix
0x01‖enc_term(t); moreover every further SetTargetTerms call — in
particular one that only changes a priority, putting the same term in
both the delete and the add phase — preserves this equality. -/
theorem claim_C4_count_invariant {s : Store} (hl : IndexLawful info)
    (hcL : cntC.Lawful) (hr : Reachable cntC info s) :
    (∀ t : T, (ReadTermCount cntC info s t 0).2
      = (distinctTargetCount info s t : Int))
    ∧ (∀ (tg : K) (terms : List (T × P)), (terms.map Prod.fst).Nodup →
      ∀ t : T, (ReadTermCount cntC info (SetTargetTerms cntC info s tg terms) t 0).2
        = (distinctTargetCount info (SetTargetTerms cntC info s tg terms) t : Int)) := by
  refine ⟨fun t => count_eq_of_inv hl (reachable_IndexInv hl hcL hr) t,
    fun tg terms hnd t => count_eq_of_inv hl
      (reachable_IndexInv hl hcL (Reachable.step tg terms hnd hr)) t⟩

theorem claim_C4_witness :
    IndexLawful scenarioInfo ∧ countCodec.Lawful
    ∧ Reachable countCodec scenarioInfo scenarioS1
    ∧ (ReadTermCount countCodec scenarioInfo scenarioS1 101 0).2
      = (distinctTargetCount scenarioInfo scenarioS1 101 : Int)
    ∧ (ReadTermCount countCodec scenarioInfo scenarioS1 101 0).2 = 2 := by
  have hl : IndexLawful scenarioInfo :=
    ⟨byteCodec_lawful, byteCodec_lawful, fu16Codec_lawful⟩
  have hreach : Reachable countCodec scenarioInfo scenarioS1 :=
    Reachable.step 10 [(101, 4), (103, 7)] (by decide)
      (Reachable.step 12 [(100, 2), (102, 10), (101, 5)] (by decide)
        (Reachable.step 10 [(100, 1), (101, 2)] (by decide) Reachable.empty))
  exact ⟨hl, countCodec_lawful, hreach,
    (claim_C4_count_invariant hl countCodec_lawful hreach).1 101, by decide⟩

/-- C6: for every term t of an index with lawful (self-delimiting)
codecs whose priority codec is the fixed-width big-endian 16-bit codec,
and every index state satisfying the row invariants, IterateTerm(t)
visits targets in non-decreasing priority order, ties broken by target
encoding ascending — because the forward key places the priority bytes
between the term bytes and the target bytes. -/
theorem claim_C6_priority_order {s : Store} {infoN : IndexInfo K T Nat}
    (hp : infoN.priorityPackFn = fu16Codec) (hl : IndexLawful infoN)
    (hinv : IndexInv infoN cntC s) (t : T) :
    List.Pairwise
      (fun a b : K × Nat => a.2 < b.2
        ∨ (a.2 = b.2 ∧ bytesLt (infoN.targetPackFn.enc a.1)
            (infoN.targetPackFn.enc b.1) = true))
      (iterateTermPairs infoN s t zeroWindow).1 := by
  have hs := hinv.1
  have heq : iterateTermPairs infoN s t zeroWindow
      = rawIterateCore s (_TermKeyPrefix infoN t) zeroWindow
        (visitOf (fun (a : List (K × Nat)) (e : Entry) =>
          a ++ [((_ReadTermTargetPriority infoN e.1).2.1,
                 (_ReadTermTargetPriority infoN e.1).2.2)])) [] := rfl
  rw [heq, rawIterate_zeroWindow hs]
  simp only
  rw [foldl_snoc_collector, List.nil_append, List.pairwise_map]
  have hpw : List.Pairwise (fun e₁ e₂ : Entry => bytesLt e₁.1 e₂.1 = true)
      (s.filter (matchPfx (_TermKeyPrefix infoN t))) :=
    List.Pairwise.sublist (List.filter_sublist _) hs
  refine List.Pairwise.imp_of_mem ?_ hpw
  intro e₁ e₂ h₁ h₂ hlt
  obtain ⟨tg₁, p₁, he₁⟩ := fwd_rows_shape hl hinv.2.1 t e₁ h₁
  obtain ⟨tg₂, p₂, he₂⟩ := fwd_rows_shape hl hinv.2.1 t e₂ h₂
  subst he₁
  subst he₂
  have hlt₂ : bytesLt
      (infoN.priorityPackFn.enc p₁ ++ infoN.targetPackFn.enc tg₁)
      (infoN.priorityPackFn.enc p₂ ++ infoN.targetPackFn.enc tg₂) = true := by
    have h := hlt
    simp only [_TermTargetKey] at h
    rw [bytesLt_cons_same, List.append_assoc, List.append_assoc,
      bytesLt_append_left] at h
    exact h
  rw [hp] at hlt₂
  have hlen : (fu16Codec.enc p₁).length = (fu16Codec.enc p₂).length := rfl
  simp only [readTermTargetPriority_eq hl]
  rcases bytesLt_append_split hlen hlt₂ with hplt | ⟨hpe, htlt⟩
  · left
    exact fu16_enc_lt_iff.mp hplt
  · right
    exact ⟨PackCodec.enc_inj fu16Codec_lawful hpe, htlt⟩

theorem claim_C6_witness :
    scenarioInfo.priorityPackFn = fu16Codec
    ∧ IndexLawful scenarioInfo
    ∧ IndexInv scenarioInfo countCodec scenarioS1
    ∧ List.Pairwise
      (fun a b : Nat × Nat => a.2 < b.2
        ∨ (a.2 = b.2 ∧ bytesLt (scenarioInfo.targetPackFn.enc a.1)
            (scenarioInfo.targetPackFn.enc b.1) = true))
      (iterateTermPairs scenarioInfo scenarioS1 101 zeroWindow).1 := by
  have hl : IndexLawful scenarioInfo :=
    ⟨byteCodec_lawful, byteCodec_lawful, fu16Codec_lawful⟩
  have hreach : Reachable countCodec scenarioInfo scenarioS1 :=
    Reachable.step 10 [(101, 4), (103, 7)] (by decide)
      (Reachable.step 12 [(100, 2), (102, 10), (101, 5)] (by decide)
        (Reachable.step 10 [(100, 1), (101, 2)] (by decide) Reachable.empty))
  have hinv : IndexInv scenarioInfo countCodec scenarioS1 :=
    reachable_IndexInv hl countCodec_lawful hreach
  exact ⟨rfl, hl, hinv, claim_C6_priority_order rfl hl hinv 101⟩

end IndexProofs
